import Mathlib

/-!
Shallow embedding of `steady::vector<T>` (src/steady/steady_vector.h), the
persistent bit-partitioned vector trie, together with proofs of its
specification claims.

Modelling conventions:
* `node_ref<T>` (the three-way variant {null, inode, leaf} together with the
  node payloads) is the inductive `node_ref`.  The intrusive reference counts
  are lifetime bookkeeping with no observable effect on contents and are not
  modelled; pointer sharing is replaced by value sharing.
* `std::array<T, BRANCHING_FACTOR>` leaf payloads and inode child arrays are
  Lean lists (length `BRANCHING_FACTOR` at every reachable state).  The source
  value-initialises every fresh leaf (`_values{}` / aggregate `{ value }`), so
  trailing padding slots always hold `T()`, modelled as `default`.
* machine integers: `size_t` is `Nat`; the `int` shift field is `Int` (it holds
  the sentinel `EMPTY_TREE_SHIFT = -5` on empty vectors).  The recursive tree
  walks only ever run with a non-negative shift, so they take the shift as a
  `Nat`; call sites convert with `Int.toNat`.
* `vector_size_to_shift`, `shift_to_max_size` and `divide_round_up` are
  declared in the header but defined in a source file that is not part of the
  repository snapshot; they are modelled from the spec (see their doc
  comments).
-/

namespace Steady

/-- `BRANCHING_FACTOR_SHIFT` from the source: number of index bits per inode
level (the source fixes it to 5). -/
def BRANCHING_FACTOR_SHIFT : Nat := 5

/-- `BRANCHING_FACTOR = 1 << BRANCHING_FACTOR_SHIFT` from the source. -/
def BRANCHING_FACTOR : Nat := 1 <<< BRANCHING_FACTOR_SHIFT

/-- `BRANCHING_FACTOR_MASK = BRANCHING_FACTOR - 1` from the source. -/
def BRANCHING_FACTOR_MASK : Nat := BRANCHING_FACTOR - 1

/-- `EMPTY_TREE_SHIFT = -BRANCHING_FACTOR_SHIFT` from the source: the shift
sentinel of the empty vector. -/
def EMPTY_TREE_SHIFT : Int := -(BRANCHING_FACTOR_SHIFT : Int)

/-- `LEAF_NODE_SHIFT = 0` from the source. -/
def LEAF_NODE_SHIFT : Nat := 0

/-- `LOWEST_LEVEL_INODE_SHIFT = BRANCHING_FACTOR_SHIFT` from the source. -/
def LOWEST_LEVEL_INODE_SHIFT : Nat := BRANCHING_FACTOR_SHIFT

/-- `node_type` from the source. -/
inductive node_type : Type where
  | null_node : node_type
  | inode : node_type
  | leaf_node : node_type
deriving DecidableEq

/-- The node variant held by a `node_ref<T>`: empty, a `leaf_node<T>`
(payload `_values`, a length-`BRANCHING_FACTOR` array), or an `inode<T>`
(payload `_children`, a length-`BRANCHING_FACTOR` array of `node_ref`s). -/
inductive node_ref (α : Type) : Type where
  | null_node : node_ref α
  | leaf_node (values : List α) : node_ref α
  | inode (children : List (node_ref α)) : node_ref α

/-- `node_ref<T>::get_type()` from the source. -/
def get_type {α : Type} : node_ref α → node_type
  | .null_node => .null_node
  | .leaf_node _ => .leaf_node
  | .inode _ => .inode

/-- `leaf_node<T>::_values` read through `node_ref<T>::get_leaf_node()`;
junk `[]` on a non-leaf (the source asserts the node is a leaf). -/
def leaf_values {α : Type} : node_ref α → List α
  | .leaf_node values => values
  | _ => []

/-- `inode<T>::get_child_array()` from the source; junk `[]` on a non-inode
(the source asserts the node is an inode). -/
def get_child_array {α : Type} : node_ref α → List (node_ref α)
  | .inode children => children
  | _ => []

/-- `inode<T>::get_child(index)` from the source; out-of-range and non-inode
reads yield `null_node` (the source asserts they do not happen). -/
def get_child {α : Type} (node : node_ref α) (index : Nat) : node_ref α :=
  (get_child_array node).getD index .null_node

/-- Modelled from the spec: `divide_round_up` is declared in the header but
defined in a source file missing from the snapshot; the spec fixes the block
count to `⌈size / B⌉`. -/
def divide_round_up (value align : Nat) : Nat :=
  (value + align - 1) / align

/-- Modelled from the spec: `shift_to_max_size` is declared in the header but
defined in a source file missing from the snapshot; the spec defines
`shift_to_max_size(shift) = B^(shift/SHIFT + 1)`, the capacity of a tree
rooted at that shift. -/
def shift_to_max_size (shift : Nat) : Nat :=
  BRANCHING_FACTOR ^ (shift / BRANCHING_FACTOR_SHIFT + 1)

/-- Helper for `vector_size_to_shift`: the number of inode levels of a
non-empty vector of `n` values, i.e. the smallest `k` with
`BRANCHING_FACTOR^(k+1) ≥ n`. -/
def size_to_levels (n : Nat) : Nat :=
  if h : n ≤ BRANCHING_FACTOR then 0
  else 1 + size_to_levels ((n + (BRANCHING_FACTOR - 1)) / BRANCHING_FACTOR)
termination_by n
decreasing_by
  have hb : BRANCHING_FACTOR = 32 := rfl
  simp only [hb] at h ⊢
  omega

/-- Modelled from the spec: `vector_size_to_shift` is declared in the header
but defined in a source file missing from the snapshot; the spec defines the
root shift of a vector of size `n` as the smallest non-negative multiple of
`SHIFT` such that `B^(shift/SHIFT + 1) ≥ n`, and `EMPTY_SHIFT` for `n = 0`. -/
def vector_size_to_shift (size : Nat) : Int :=
  if size = 0 then EMPTY_TREE_SHIFT
  else (BRANCHING_FACTOR_SHIFT : Int) * size_to_levels size

/-- The state of `steady::vector<T>`: `(_root, _size, _shift)`. -/
structure vector (α : Type) : Type where
  root : node_ref α
  size : Nat
  shift : Int

/-- The default constructor `vector()`: empty root, size 0, shift
`EMPTY_TREE_SHIFT` (the fields' default initialisers in the source). -/
def empty_vector {α : Type} : vector α :=
  ⟨.null_node, 0, EMPTY_TREE_SHIFT⟩

/-- The descent loop of `find_leaf_node` from the source: while `shift > 0`,
step into the child at slot `(index >> shift) & BRANCHING_FACTOR_MASK`. -/
def find_leaf_loop {α : Type} (node : node_ref α) (shift index : Nat) : node_ref α :=
  if h : 0 < shift then
    find_leaf_loop (get_child node ((index >>> shift) &&& BRANCHING_FACTOR_MASK))
      (shift - BRANCHING_FACTOR_SHIFT) index
  else node
termination_by shift
decreasing_by
  exact Nat.sub_lt h (by decide)

/-- `find_leaf_node(original, index)` from the source. -/
def find_leaf_node {α : Type} (original : vector α) (index : Nat) : node_ref α :=
  find_leaf_loop original.root original.shift.toNat index

/-- `replace_leaf_node(node, shift, leaf_index0, new_leaf)` from the source:
path-copy down to the leaf holding `leaf_index0` and replace it. -/
def replace_leaf_node {α : Type} (node : node_ref α) (shift : Nat) (leaf_index0 : Nat)
    (new_leaf : node_ref α) : node_ref α :=
  let slot_index := (leaf_index0 >>> shift) &&& BRANCHING_FACTOR_MASK
  if h : shift = LEAF_NODE_SHIFT then
    new_leaf
  else
    let child := get_child node slot_index
    let child2 := replace_leaf_node child (shift - BRANCHING_FACTOR_SHIFT) leaf_index0 new_leaf
    node_ref.inode ((get_child_array node).set slot_index child2)
termination_by shift
decreasing_by
  exact Nat.sub_lt (Nat.pos_of_ne_zero h) (by decide)

/-- `replace_value(node, shift, index, value)` from the source: path-copy down
to the leaf, copy its value array and overwrite slot `index & MASK`. -/
def replace_value {α : Type} (node : node_ref α) (shift : Nat) (index : Nat) (value : α) :
    node_ref α :=
  let slot_index := (index >>> shift) &&& BRANCHING_FACTOR_MASK
  if h : shift = LEAF_NODE_SHIFT then
    node_ref.leaf_node ((leaf_values node).set slot_index value)
  else
    let child := get_child node slot_index
    let child2 := replace_value child (shift - BRANCHING_FACTOR_SHIFT) index value
    node_ref.inode ((get_child_array node).set slot_index child2)
termination_by shift
decreasing_by
  exact Nat.sub_lt (Nat.pos_of_ne_zero h) (by decide)

/-- `make_new_path(shift, leaf_node)` from the source: a spine of
single-child inodes of the given depth ending in the leaf.  The aggregate
initialiser `{ a }` fills the remaining slots with empty `node_ref`s. -/
def make_new_path {α : Type} (shift : Nat) (leaf : node_ref α) : node_ref α :=
  if h : shift = LEAF_NODE_SHIFT then
    leaf
  else
    node_ref.inode (make_new_path (shift - BRANCHING_FACTOR_SHIFT) leaf ::
      List.replicate (BRANCHING_FACTOR - 1) node_ref.null_node)
termination_by shift
decreasing_by
  exact Nat.sub_lt (Nat.pos_of_ne_zero h) (by decide)

/-- `append_leaf_node(original, shift, index, leaf_node)` from the source:
path-copy towards slot `(index >> shift) & MASK`, placing the leaf directly at
the lowest inode level and building a fresh spine when the slot is empty.
The source asserts `original` is an inode (so `shift ≥
LOWEST_LEVEL_INODE_SHIFT`); the `shift = 0` guard below is an unreachable
totality guard. -/
def append_leaf_node {α : Type} (original : node_ref α) (shift : Nat) (index : Nat)
    (leaf : node_ref α) : node_ref α :=
  let slot_index := (index >>> shift) &&& BRANCHING_FACTOR_MASK
  let children := get_child_array original
  if h : shift = LOWEST_LEVEL_INODE_SHIFT then
    node_ref.inode (children.set slot_index leaf)
  else if h0 : shift = 0 then
    node_ref.null_node
  else
    let child := children.getD slot_index node_ref.null_node
    if get_type child = node_type.null_node then
      let child2 := make_new_path (shift - BRANCHING_FACTOR_SHIFT) leaf
      node_ref.inode (children.set slot_index child2)
    else
      let child2 := append_leaf_node child (shift - BRANCHING_FACTOR_SHIFT) index leaf
      node_ref.inode (children.set slot_index child2)
termination_by shift
decreasing_by
  exact Nat.sub_lt (Nat.pos_of_ne_zero h0) (by decide)

/-- `push_back_leaf_node(original, new_leaf, leaf_item_count)` from the
source: attach a whole new rightmost leaf, growing the root when the current
tree is full.  Precondition in the source: `original.size()` is a multiple of
`BRANCHING_FACTOR`. -/
def push_back_leaf_node {α : Type} (original : vector α) (new_leaf : node_ref α)
    (leaf_item_count : Nat) : vector α :=
  let original_size := original.size
  let original_shift := original.shift
  if original_size = 0 then
    vector.mk new_leaf leaf_item_count (LEAF_NODE_SHIFT : Int)
  else
    let max_values := shift_to_max_size original_shift.toNat
    if original_size + leaf_item_count ≤ max_values then
      let root := append_leaf_node original.root original_shift.toNat original_size new_leaf
      vector.mk root (original_size + leaf_item_count) original_shift
    else
      let new_path := make_new_path original_shift.toNat new_leaf
      let new_root := node_ref.inode (original.root :: new_path ::
        List.replicate (BRANCHING_FACTOR - 2) node_ref.null_node)
      vector.mk new_root (original_size + leaf_item_count)
        (original_shift + (BRANCHING_FACTOR_SHIFT : Int))

/-- `push_back_1(original, value)` from the source: grow the partial last
leaf through `replace_value` at index `size`, or push a fresh one-value leaf.
`make_leaf_node<T>({ value })` aggregate-initialises the array: slot 0 holds
`value`, the remaining slots are value-initialised (`default`). -/
def push_back_1 {α : Type} [Inhabited α] (original : vector α) (value : α) : vector α :=
  let size := original.size
  if size &&& BRANCHING_FACTOR_MASK ≠ 0 then
    let shift := original.shift
    let root := replace_value original.root shift.toNat size value
    vector.mk root (size + 1) shift
  else
    let leaf := node_ref.leaf_node (value :: List.replicate (BRANCHING_FACTOR - 1) default)
    push_back_leaf_node original leaf 1

/-- The whole-leaf drip loop of `push_back_batch` (its second phase): while
source values remain, fill a fresh default-initialised leaf with up to
`BRANCHING_FACTOR` of them and attach it with `push_back_leaf_node`. -/
def push_back_batch_loop {α : Type} [Inhabited α] (result : vector α) (values : List α)
    (source_pos count : Nat) : vector α :=
  if h : source_pos < count then
    let batch_count := min (count - source_pos) BRANCHING_FACTOR
    let new_leaf := node_ref.leaf_node ((values.drop source_pos).take batch_count ++
      List.replicate (BRANCHING_FACTOR - batch_count) default)
    push_back_batch_loop (push_back_leaf_node result new_leaf batch_count)
      values (source_pos + batch_count) count
  else result
termination_by count - source_pos
decreasing_by
  have hb : BRANCHING_FACTOR = 32 := rfl
  omega

/-- `push_back_batch(original, values, count)` from the source.  Phase 1 pads
out a partial last leaf: it builds a fresh default-initialised leaf holding
the old leaf's defined prefix followed by `copy_count` buffer values, and
publishes it with `replace_leaf_node`.  Phase 2 is `push_back_batch_loop`.
`original.size() & ~BRANCHING_FACTOR_MASK` is written as
`original.size - last_leaf_size`. -/
def push_back_batch {α : Type} [Inhabited α] (original : vector α) (values : List α)
    (count : Nat) : vector α :=
  let last_leaf_size := original.size &&& BRANCHING_FACTOR_MASK
  if 0 < last_leaf_size then
    let last_leaf_node_index := original.size - last_leaf_size
    let copy_count := min (BRANCHING_FACTOR - last_leaf_size) count
    let prev_leaf := find_leaf_node original last_leaf_node_index
    let new_leaf := node_ref.leaf_node ((leaf_values prev_leaf).take last_leaf_size ++
      values.take copy_count ++
      List.replicate (BRANCHING_FACTOR - last_leaf_size - copy_count) default)
    let new_root := replace_leaf_node original.root original.shift.toNat
      last_leaf_node_index new_leaf
    let result := vector.mk new_root (original.size + copy_count) original.shift
    push_back_batch_loop result values copy_count count
  else
    push_back_batch_loop original values 0 count

/-- The constructor `vector(const std::vector<T>& values)`: delegates to
`push_back_batch` on an empty vector unless `values` is empty. -/
def vector_from_std_vector {α : Type} [Inhabited α] (values : List α) : vector α :=
  if values.isEmpty then empty_vector
  else push_back_batch empty_vector values values.length

/-- The constructor `vector(const T values[], size_t count)` with its
`STEADY_ASSERT(values != nullptr)`: `none` models a null buffer pointer and
the resulting assertion failure (the header documents "values: must not be
nullptr, not even when count == 0"). -/
def vector_from_buffer {α : Type} [Inhabited α] (values : Option (List α)) (count : Nat) :
    Option (vector α) :=
  match values with
  | none => none
  | some vs => some (push_back_batch empty_vector vs count)

/-- `vector<T>::push_back(value)` from the source. -/
def vector.push_back {α : Type} [Inhabited α] (v : vector α) (value : α) : vector α :=
  push_back_1 v value

/-- `vector<T>::store(index, value)` from the source: replace one value,
keeping `_size` and `_shift`. -/
def vector.store {α : Type} (v : vector α) (index : Nat) (value : α) : vector α :=
  vector.mk (replace_value v.root v.shift.toNat index value) v.size v.shift

/-- `vector<T>::operator[](index)` from the source: descend to the leaf and
read slot `index & BRANCHING_FACTOR_MASK`. -/
def get_at {α : Type} [Inhabited α] (v : vector α) (index : Nat) : α :=
  let leaf := find_leaf_node v index
  let slot_index := index &&& BRANCHING_FACTOR_MASK
  (leaf_values leaf).getD slot_index default

/-- `vector<T>::get_block_count()` from the source. -/
def get_block_count {α : Type} (v : vector α) : Nat :=
  divide_round_up v.size BRANCHING_FACTOR

/-- `vector<T>::get_block(block_index)` from the source: the value array of
the `block_index`-th leaf (the source returns a pointer to its first slot). -/
def get_block {α : Type} (v : vector α) (block_index : Nat) : List α :=
  leaf_values (find_leaf_node v (block_index * BRANCHING_FACTOR))

/-- `vector<T>::to_vec()` from the source: block-wise copy, taking
`min(BRANCHING_FACTOR, _size - index*BRANCHING_FACTOR)` values per block. -/
def to_vec {α : Type} (v : vector α) : List α :=
  (List.range (get_block_count v)).flatMap fun index =>
    (get_block v index).take (min BRANCHING_FACTOR (v.size - index * BRANCHING_FACTOR))

/-- `vector<T>::pop_back()` from the source: materialise with `to_vec` and
re-ingest all but the last value through the buffer constructor (which
delegates to `push_back_batch` on an empty vector). -/
def vector.pop_back {α : Type} [Inhabited α] (v : vector α) : vector α :=
  let temp := to_vec v
  push_back_batch empty_vector temp (v.size - 1)

/-- `vector<T>::operator==(rhs)` from the source.  The two root fast paths
compare node allocations (`get_inode()` / `get_leaf_node()` pointers); the
model takes that comparison as a parameter `same_alloc`, which any sound
pointer-equality test refines: pointer-equal handles reference the same node,
so `same_alloc x y = true → x = y`. -/
def vec_eq {α : Type} [DecidableEq α] (same_alloc : node_ref α → node_ref α → Bool)
    (a rhs : vector α) : Bool :=
  if a.size ≠ rhs.size then false
  else if a.size = 0 then true
  else if get_type a.root ≠ get_type rhs.root then false
  else if get_type a.root = node_type.inode ∧ same_alloc a.root rhs.root = true then true
  else if get_type a.root = node_type.leaf_node ∧ same_alloc a.root rhs.root = true then true
  else
    (List.range (get_block_count a)).all fun index =>
      let r := min BRANCHING_FACTOR (a.size - index * BRANCHING_FACTOR)
      decide ((get_block a index).take r = (get_block rhs index).take r)

/-- `operator+(a, b)` from the source: a default-constructed `result` is
returned unchanged when `b` is empty, otherwise `b` is materialised and
batch-appended onto `a`. -/
def op_add {α : Type} [Inhabited α] (a b : vector α) : vector α :=
  if b.size = 0 then empty_vector
  else
    let v := to_vec b
    push_back_batch a v v.length

/-!
Canonical trees.  Every fresh leaf in the source is value-initialised, so the
padding of a partial leaf is always `default`; consequently every reachable
tree is the canonical tree of its element list, built below.
-/

/-- Split a list into consecutive chunks of `c` values (the last chunk may be
shorter); junk `[]` when `c = 0` (never used: chunk sizes are powers of
`BRANCHING_FACTOR`). -/
def chunks {α : Type} (c : Nat) : List α → List (List α)
  | [] => []
  | a :: l =>
    if h : c = 0 then []
    else ((a :: l).take c) :: chunks c ((a :: l).drop c)
termination_by l => l.length
decreasing_by
  simp only [List.length_drop, List.length_cons]
  omega

/-- The canonical tree of level `k` (root shift `BRANCHING_FACTOR_SHIFT * k`)
holding the values of `l`, for `0 < l.length ≤ BRANCHING_FACTOR^(k+1)`:
leaves are padded with `default`, inode child arrays are packed and padded
with `null_node`. -/
def build_tree {α : Type} [Inhabited α] : Nat → List α → node_ref α
  | 0, l => .leaf_node (l ++ List.replicate (32 - l.length) default)
  | k + 1, l =>
    let cs := chunks (32 ^ (k + 1)) l
    .inode (cs.map (build_tree k) ++
      List.replicate (32 - cs.length) node_ref.null_node)

/-- The canonical vector holding the values of `l`.  Every vector reachable
through the public operations of the source equals `of_list` of its element
list (proved below, operation by operation). -/
def of_list {α : Type} [Inhabited α] (l : List α) : vector α :=
  vector.mk
    (if l.length = 0 then node_ref.null_node else build_tree (size_to_levels l.length) l)
    l.length
    (vector_size_to_shift l.length)

/-! Numeric values of the constants, and index arithmetic. -/

theorem B_def : BRANCHING_FACTOR = 32 := rfl

theorem BM_def : BRANCHING_FACTOR_MASK = 31 := rfl

theorem BS_def : BRANCHING_FACTOR_SHIFT = 5 := rfl

/-- `x & BRANCHING_FACTOR_MASK` extracts `x mod 32`. -/
theorem and_mask_eq_mod (x : Nat) : x &&& BRANCHING_FACTOR_MASK = x % 32 := by
  have h : BRANCHING_FACTOR_MASK = 2 ^ 5 - 1 := rfl
  rw [h, Nat.and_pow_two_sub_one_eq_mod]

/-- The slot computation `(i >> s) & MASK` is `i / 2^s mod 32`. -/
theorem shift_mask_eq (i s : Nat) :
    (i >>> s) &&& BRANCHING_FACTOR_MASK = i / 2 ^ s % 32 := by
  rw [and_mask_eq_mod, Nat.shiftRight_eq_div_pow]

theorem two_pow_mul_five (k : Nat) : 2 ^ (5 * k) = 32 ^ k := by
  rw [pow_mul]
  norm_num

/-- Characterisation of `size_to_levels`: it is the least `j` with
`n ≤ 32^(j+1)`. -/
theorem size_to_levels_le_iff (n j : Nat) :
    size_to_levels n ≤ j ↔ n ≤ 32 ^ (j + 1) := by
  induction n using Nat.strong_induction_on generalizing j with
  | _ n ih =>
    rw [size_to_levels]
    simp only [B_def, show (32 : Nat) - 1 = 31 from rfl]
    split_ifs with h
    · have hr : n ≤ 32 ^ (j + 1) := by
        calc n ≤ 32 := h
        _ = 32 ^ 1 := (pow_one 32).symm
        _ ≤ 32 ^ (j + 1) := Nat.pow_le_pow_right (by omega) (by omega)
      simp [hr]
    · cases j with
      | zero =>
        have hp : (32 : Nat) ^ (0 + 1) = 32 := by norm_num
        omega
      | succ j' =>
        have hlt : (n + 31) / 32 < n := by omega
        have hih := ih ((n + 31) / 32) hlt j'
        have harith : (n + 31) / 32 ≤ 32 ^ (j' + 1) ↔ n ≤ 32 * 32 ^ (j' + 1) := by
          omega
        have hpow : 32 * 32 ^ (j' + 1) = 32 ^ (j' + 1 + 1) := (pow_succ' 32 (j' + 1)).symm
        constructor
        · intro hle
          have h2 : size_to_levels ((n + 31) / 32) ≤ j' := by omega
          rw [hih] at h2
          rw [← hpow]
          exact harith.mp h2
        · intro hle
          have h2 : (n + 31) / 32 ≤ 32 ^ (j' + 1) := harith.mpr (by rw [hpow]; exact hle)
          rw [← hih] at h2
          omega

/-- Any non-empty vector fits in its canonical tree. -/
theorem le_pow_size_to_levels (n : Nat) : n ≤ 32 ^ (size_to_levels n + 1) :=
  (size_to_levels_le_iff n (size_to_levels n)).mp le_rfl

/-- Minimality direction of `size_to_levels`. -/
theorem size_to_levels_le (n j : Nat) (h : n ≤ 32 ^ (j + 1)) : size_to_levels n ≤ j :=
  (size_to_levels_le_iff n j).mpr h

/-- `size_to_levels` is monotone. -/
theorem size_to_levels_mono {m n : Nat} (h : m ≤ n) : size_to_levels m ≤ size_to_levels n :=
  size_to_levels_le m (size_to_levels n) (le_trans h (le_pow_size_to_levels n))

theorem size_to_levels_of_le {n : Nat} (h : n ≤ 32) : size_to_levels n = 0 :=
  Nat.le_zero.mp (size_to_levels_le n 0 (by simpa using h))

/-- For a non-zero size, `vector_size_to_shift` is five times the level
count. -/
theorem vector_size_to_shift_pos {n : Nat} (h : n ≠ 0) :
    vector_size_to_shift n = ((5 * size_to_levels n : Nat) : Int) := by
  rw [vector_size_to_shift]
  simp only [h, if_false, BS_def]
  push_cast
  ring

theorem vector_size_to_shift_zero : vector_size_to_shift 0 = EMPTY_TREE_SHIFT := rfl

/-! Chunk arithmetic. -/

theorem chunks_nil {α : Type} (c : Nat) : chunks c ([] : List α) = [] := by
  rw [chunks]

theorem chunks_cons {α : Type} {c : Nat} (hc : c ≠ 0) (l : List α) (hl : l ≠ []) :
    chunks c l = l.take c :: chunks c (l.drop c) := by
  match l with
  | [] => exact absurd rfl hl
  | a :: l' =>
    rw [chunks]
    simp only [hc, dif_neg, not_false_iff]

/-- The number of chunks is `⌈l.length / c⌉`. -/
theorem chunks_length {α : Type} {c : Nat} (hc : c ≠ 0) (l : List α) :
    (chunks c l).length = (l.length + c - 1) / c := by
  induction l using chunks.induct c with
  | case1 =>
    rw [chunks_nil]
    simp only [List.length_nil, Nat.zero_add]
    exact (Nat.div_eq_of_lt (by omega)).symm
  | case2 a l hcz => exact absurd hcz hc
  | case3 a l hcz ih =>
    rw [chunks_cons hc _ (by simp)]
    simp only [List.length_cons, List.length_drop] at ih ⊢
    rcases Nat.lt_or_ge (l.length + 1) c with hlt | hge
    · have h0 : l.length + 1 - c = 0 := by omega
      rw [ih, h0]
      have hz : (0 + c - 1) / c = 0 := Nat.div_eq_of_lt (by omega)
      have h1 : l.length + 1 + c - 1 = (l.length + 1 - 1) + c := by omega
      have h3 : (l.length + 1 - 1) / c = 0 := Nat.div_eq_of_lt (by omega)
      rw [hz, h1, Nat.add_div_right _ (by omega), h3]
    · have h1 : l.length + 1 - c + c - 1 = l.length + 1 - 1 := by omega
      have h2 : l.length + 1 + c - 1 = (l.length + 1 - 1) + c := by omega
      rw [ih, h1, h2, Nat.add_div_right _ (by omega)]

/-- The `i`-th chunk is the window `[c*i, c*i + c)` of the list. -/
theorem chunks_getD {α : Type} {c : Nat} (hc : c ≠ 0) (l : List α) (i : Nat)
    (hi : i < (chunks c l).length) :
    (chunks c l).getD i [] = (l.drop (c * i)).take c := by
  induction l using chunks.induct c generalizing i with
  | case1 =>
    rw [chunks_nil] at hi
    exact absurd hi (by simp)
  | case2 a l hcz => exact absurd hcz hc
  | case3 a l hcz ih =>
    rw [chunks_cons hc _ (by simp)] at hi ⊢
    match i with
    | 0 => simp
    | i + 1 =>
      simp only [List.getD_cons_succ]
      rw [ih i (by simpa using hi)]
      rw [List.drop_drop]
      congr 2
      ring

/-- Every chunk at a valid index covers `min c (l.length - c*i)` values. -/
theorem chunks_getD_length {α : Type} {c : Nat} (hc : c ≠ 0) (l : List α) (i : Nat)
    (hi : i < (chunks c l).length) :
    ((chunks c l).getD i []).length = min c (l.length - c * i) := by
  rw [chunks_getD hc l i hi]
  simp [Nat.min_comm]

/-- The window start of a valid chunk index lies inside the list. -/
theorem chunks_lt_length {α : Type} {c : Nat} (hc : c ≠ 0) (l : List α) (i : Nat)
    (hi : i < (chunks c l).length) : c * i < l.length := by
  rw [chunks_length hc] at hi
  rcases Nat.eq_zero_or_pos l.length with h0 | h0
  · rw [h0] at hi
    have : (0 + c - 1) / c = 0 := Nat.div_eq_of_lt (by omega)
    omega
  · have h1 : l.length + c - 1 = (l.length - 1) + c := by omega
    rw [h1, Nat.add_div_right _ (by omega)] at hi
    have hi' : i ≤ (l.length - 1) / c := by omega
    have := Nat.mul_le_mul_left c hi'
    have hd := Nat.div_mul_le_self (l.length - 1) c
    have : c * ((l.length - 1) / c) ≤ l.length - 1 := by
      calc c * ((l.length - 1) / c) = (l.length - 1) / c * c := Nat.mul_comm _ _
      _ ≤ l.length - 1 := hd
    omega

/-- Converse index bound: any window start inside the list is a valid chunk
index. -/
theorem lt_chunks_length {α : Type} {c : Nat} (hc : c ≠ 0) (l : List α) (i : Nat)
    (hi : c * i < l.length) : i < (chunks c l).length := by
  rw [chunks_length hc]
  have h1 : l.length + c - 1 = (l.length - 1) + c := by omega
  rw [h1, Nat.add_div_right _ (by omega)]
  have hle : i ≤ (l.length - 1) / c := by
    rw [Nat.le_div_iff_mul_le (by omega)]
    have hcomm : i * c = c * i := Nat.mul_comm i c
    omega
  omega

/-! Helpers for element-wise list reasoning. -/

theorem ext_getD {α : Type} {l₁ l₂ : List α} (d : α) (hlen : l₁.length = l₂.length)
    (h : ∀ i, i < l₁.length → l₁.getD i d = l₂.getD i d) : l₁ = l₂ := by
  apply List.ext_getElem hlen
  intro i h1 h2
  have h3 := h i h1
  rwa [List.getD_eq_getElem _ _ h1, List.getD_eq_getElem _ _ h2] at h3

theorem getD_replicate {α : Type} (r n : Nat) (a : α) :
    (List.replicate r a).getD n a = a := by
  rcases Nat.lt_or_ge n r with h | h
  · rw [List.getD_eq_getElem _ _ (by simpa using h)]
    simp
  · exact List.getD_eq_default _ _ (by simpa using h)

theorem getD_take {α : Type} (l : List α) (d : α) (m n : Nat) (h : n < m) :
    (l.take m).getD n d = l.getD n d := by
  rcases Nat.lt_or_ge n l.length with hl | hl
  · rw [List.getD_eq_getElem _ _ (by simp; omega), List.getD_eq_getElem _ _ hl]
    simp
  · rw [List.getD_eq_default _ _ (by simp; omega), List.getD_eq_default _ _ hl]

theorem getD_drop {α : Type} (l : List α) (d : α) (m n : Nat) :
    (l.drop m).getD n d = l.getD (m + n) d := by
  rcases Nat.lt_or_ge (m + n) l.length with hl | hl
  · rw [List.getD_eq_getElem _ _ (by simp; omega), List.getD_eq_getElem _ _ hl]
    simp
  · rw [List.getD_eq_default _ _ (by simp; omega), List.getD_eq_default _ _ hl]

theorem getD_set_self {α : Type} (l : List α) (d a : α) (i : Nat) (h : i < l.length) :
    (l.set i a).getD i d = a := by
  rw [List.getD_eq_getElem _ _ (by simpa using h)]
  simp [List.getElem_set_self]

theorem getD_set_ne {α : Type} (l : List α) (d a : α) (i j : Nat) (h : i ≠ j) :
    (l.set i a).getD j d = l.getD j d := by
  rcases Nat.lt_or_ge j l.length with hl | hl
  · rw [List.getD_eq_getElem _ _ (by simpa using hl), List.getD_eq_getElem _ _ hl]
    exact List.getElem_set_ne h _
  · rw [List.getD_eq_default _ _ (by simpa using hl), List.getD_eq_default _ _ hl]

/-! Characterisation of canonical trees. -/

theorem build_tree_zero {α : Type} [Inhabited α] (l : List α) :
    build_tree 0 l = node_ref.leaf_node (l ++ List.replicate (32 - l.length) default) := by
  rw [build_tree]

/-- The child array of a canonical inode. -/
def build_children {α : Type} [Inhabited α] (k : Nat) (l : List α) : List (node_ref α) :=
  (chunks (32 ^ (k + 1)) l).map (build_tree k) ++
    List.replicate (32 - (chunks (32 ^ (k + 1)) l).length) node_ref.null_node

theorem build_tree_succ {α : Type} [Inhabited α] (k : Nat) (l : List α) :
    build_tree (k + 1) l = node_ref.inode (build_children k l) := by
  rw [build_tree, build_children]

theorem pow32_ne_zero (k : Nat) : (32 : Nat) ^ k ≠ 0 := by
  positivity

/-- A list bounded by `32^(k+2)` has at most 32 chunks of size `32^(k+1)`. -/
theorem chunks_length_le {α : Type} (k : Nat) (l : List α) (h : l.length ≤ 32 ^ (k + 2)) :
    (chunks (32 ^ (k + 1)) l).length ≤ 32 := by
  rw [chunks_length (pow32_ne_zero (k + 1))]
  have hc : 0 < (32 : Nat) ^ (k + 1) := Nat.pos_pow_of_pos _ (by omega)
  have h2 : l.length + 32 ^ (k + 1) - 1 < 33 * 32 ^ (k + 1) := by
    have : (32 : Nat) ^ (k + 2) = 32 * 32 ^ (k + 1) := by ring
    omega
  have := (Nat.div_lt_iff_lt_mul hc).mpr h2
  omega

theorem build_children_length {α : Type} [Inhabited α] (k : Nat) (l : List α)
    (h : l.length ≤ 32 ^ (k + 2)) : (build_children k l).length = 32 := by
  rw [build_children]
  have := chunks_length_le k l h
  simp
  omega

/-- A packed child of a canonical inode is the canonical tree of its chunk. -/
theorem build_children_getD_lt {α : Type} [Inhabited α] (k : Nat) (l : List α) (s : Nat)
    (hs : s < (chunks (32 ^ (k + 1)) l).length) :
    (build_children k l).getD s node_ref.null_node =
      build_tree k ((l.drop (32 ^ (k + 1) * s)).take (32 ^ (k + 1))) := by
  rw [build_children, List.getD_append _ _ _ _ (by simpa using hs)]
  rw [List.getD_eq_getElem _ _ (by simpa using hs)]
  rw [List.getElem_map]
  rw [← List.getD_eq_getElem _ _ hs]
  rw [chunks_getD (pow32_ne_zero (k + 1)) l s hs]

/-- A trailing child of a canonical inode is empty. -/
theorem build_children_getD_ge {α : Type} [Inhabited α] (k : Nat) (l : List α) (s : Nat)
    (hs : (chunks (32 ^ (k + 1)) l).length ≤ s) :
    (build_children k l).getD s node_ref.null_node = node_ref.null_node := by
  rw [build_children, List.getD_append_right _ _ _ _ (by simpa using hs)]
  simp only [List.length_map]
  exact getD_replicate _ _ _

theorem get_child_build_lt {α : Type} [Inhabited α] (k : Nat) (l : List α) (s : Nat)
    (hs : s < (chunks (32 ^ (k + 1)) l).length) :
    get_child (build_tree (k + 1) l) s =
      build_tree k ((l.drop (32 ^ (k + 1) * s)).take (32 ^ (k + 1))) := by
  rw [build_tree_succ, get_child, get_child_array]
  exact build_children_getD_lt k l s hs

theorem get_child_build_ge {α : Type} [Inhabited α] (k : Nat) (l : List α) (s : Nat)
    (hs : (chunks (32 ^ (k + 1)) l).length ≤ s) :
    get_child (build_tree (k + 1) l) s = node_ref.null_node := by
  rw [build_tree_succ, get_child, get_child_array]
  exact build_children_getD_ge k l s hs

/-- Composition of trie windows: the 32-window around position `j` of `l`
equals the 32-window around `j % c` inside the `c`-window containing `j`,
whenever `32 ∣ c`. -/
theorem window_comp {α : Type} (l : List α) (c j : Nat) (q : Nat) (hq : c = 32 * q)
    (hq0 : q ≠ 0) :
    (((l.drop (c * (j / c))).take c).drop (32 * (j % c / 32))).take 32 =
      (l.drop (32 * (j / 32))).take 32 := by
  have hc : c ≠ 0 := by omega
  have hr : j % c < c := Nat.mod_lt _ (by omega)
  have hm : 32 * (j % c / 32) + 32 ≤ c := by
    have : j % c / 32 < q := by
      have := (Nat.div_lt_iff_lt_mul (show 0 < 32 by omega)).mpr
        (show j % c < q * 32 by omega)
      exact this
    omega
  rw [List.drop_take, List.drop_drop, List.take_take]
  have hmin : min 32 (c - 32 * (j % c / 32)) = 32 := by omega
  rw [hmin]
  congr 2
  have hsplit : j = c * (j / c) + j % c := by
    have := Nat.mod_add_div j c
    omega
  have hdiv : j / 32 = q * (j / c) + j % c / 32 := by
    have h1 : c * (j / c) = 32 * (q * (j / c)) := by rw [hq]; ring
    conv_lhs => rw [hsplit, h1]
    rw [Nat.mul_add_div (by omega)]
  rw [hdiv, hq]
  ring

/-- `find_leaf_node`'s loop lands on the canonical leaf of the 32-window
containing index `i` (only `i mod` the tree capacity is consulted). -/
theorem find_leaf_loop_build {α : Type} [Inhabited α] (k : Nat) (l : List α) (i : Nat)
    (hlc : l.length ≤ 32 ^ (k + 1)) (hi : i % 32 ^ (k + 1) < l.length) :
    find_leaf_loop (build_tree k l) (5 * k) i =
      build_tree 0 ((l.drop (32 * (i % 32 ^ (k + 1) / 32))).take 32) := by
  induction k generalizing l with
  | zero =>
    rw [find_leaf_loop]
    simp only [Nat.mul_zero, Nat.lt_irrefl, dif_neg, not_false_iff]
    have h32 : i % 32 ^ (0 + 1) = i % 32 := by norm_num
    rw [h32] at hi ⊢
    have hdz : i % 32 / 32 = 0 := Nat.div_eq_of_lt (Nat.mod_lt _ (by omega))
    rw [hdz, Nat.mul_zero, List.drop_zero, List.take_of_length_le (by norm_num at hlc; omega)]
  | succ k ih =>
    rw [find_leaf_loop]
    rw [dif_pos (show 0 < 5 * (k + 1) by omega)]
    have hslot : (i >>> (5 * (k + 1))) &&& BRANCHING_FACTOR_MASK =
        i % 32 ^ (k + 2) / 32 ^ (k + 1) := by
      rw [shift_mask_eq, two_pow_mul_five, ← Nat.mod_mul_right_div_self, ← pow_succ]
    set c : Nat := 32 ^ (k + 1) with hc_def
    have hc0 : c ≠ 0 := pow32_ne_zero (k + 1)
    set j : Nat := i % 32 ^ (k + 2) with hj_def
    set s : Nat := j / c with hs_def
    have hjl : j < l.length := hi
    have hcs : c * s < l.length := by
      have h1 : c * s ≤ j := by
        rw [hs_def]
        exact Nat.mul_div_le j c
      omega
    have hs_lt : s < (chunks c l).length := lt_chunks_length hc0 l s hcs
    rw [hslot, get_child_build_lt k l s hs_lt]
    have hshift : 5 * (k + 1) - BRANCHING_FACTOR_SHIFT = 5 * k := by
      rw [BS_def]
      omega
    rw [hshift]
    set chunk : List α := (l.drop (c * s)).take c with hchunk_def
    have hchunk_len : chunk.length = min c (l.length - c * s) := by
      rw [hchunk_def]
      simp [Nat.min_comm]
    have hmod : i % c = j % c := by
      rw [hj_def, Nat.mod_mod_of_dvd]
      exact ⟨32, by rw [hc_def, pow_succ]⟩
    have hjc : j % c = j - c * s := by
      have h2 := Nat.mod_add_div j c
      have h3 : c * (j / c) = c * s := by rw [hs_def]
      omega
    have hrc : j % c < c := Nat.mod_lt _ (by omega)
    have hrec := ih chunk (by omega) (by rw [hmod]; omega)
    rw [hrec]
    congr 1
    rw [hmod, hjc, hchunk_def]
    have hw := window_comp l c j (32 ^ k) (by rw [hc_def]; ring) (pow32_ne_zero k)
    rw [hjc] at hw
    exact hw

/-! Canonical vectors: field projections and positional access. -/

theorem of_list_size {α : Type} [Inhabited α] (l : List α) : (of_list l).size = l.length := rfl

theorem of_list_shift {α : Type} [Inhabited α] (l : List α) :
    (of_list l).shift = vector_size_to_shift l.length := rfl

theorem of_list_nil {α : Type} [Inhabited α] : (of_list ([] : List α)) = empty_vector := rfl

theorem of_list_root {α : Type} [Inhabited α] {l : List α} (h : l ≠ []) :
    (of_list l).root = build_tree (size_to_levels l.length) l := by
  have hlen : l.length ≠ 0 := fun h0 => h (List.length_eq_zero.mp h0)
  simp [of_list, hlen]

theorem of_list_shift_toNat {α : Type} [Inhabited α] {l : List α} (h : l ≠ []) :
    (of_list l).shift.toNat = 5 * size_to_levels l.length := by
  have hlen : l.length ≠ 0 := fun h0 => h (List.length_eq_zero.mp h0)
  rw [of_list_shift, vector_size_to_shift_pos hlen]
  exact Int.toNat_natCast _

/-- `find_leaf_node` on a canonical vector returns the canonical leaf of the
32-window containing the index. -/
theorem find_leaf_node_of_list {α : Type} [Inhabited α] (l : List α) (i : Nat)
    (hi : i < l.length) :
    find_leaf_node (of_list l) i = build_tree 0 ((l.drop (32 * (i / 32))).take 32) := by
  have hne : l ≠ [] := by
    intro h0
    rw [h0] at hi
    simp at hi
  rw [find_leaf_node, of_list_root hne, of_list_shift_toNat hne]
  have hcap := le_pow_size_to_levels l.length
  have hmod : i % 32 ^ (size_to_levels l.length + 1) = i := Nat.mod_eq_of_lt (by omega)
  have h := find_leaf_loop_build (size_to_levels l.length) l i hcap (by rw [hmod]; omega)
  rw [hmod] at h
  exact h

/-- Positional lookup on a canonical vector reads the list. -/
theorem get_at_of_list {α : Type} [Inhabited α] (l : List α) (i : Nat) (hi : i < l.length) :
    get_at (of_list l) i = l.getD i default := by
  rw [get_at, find_leaf_node_of_list l i hi, build_tree_zero, leaf_values]
  have hsplit := Nat.mod_add_div i 32
  rw [and_mask_eq_mod, List.getD_append _ _ _ _ (by simp; omega)]
  rw [getD_take _ _ _ _ (Nat.mod_lt _ (by omega)), getD_drop]
  congr 1
  omega

/-! `replace_value` on canonical trees. -/

/-- `replace_value` at an occupied index path-copies into the canonical tree
of the updated list. -/
theorem replace_value_build_set {α : Type} [Inhabited α] (k : Nat) (l : List α) (i : Nat)
    (v : α) (hlc : l.length ≤ 32 ^ (k + 1)) (hi : i % 32 ^ (k + 1) < l.length) :
    replace_value (build_tree k l) (5 * k) i v =
      build_tree k (l.set (i % 32 ^ (k + 1)) v) := by
  induction k generalizing l with
  | zero =>
    rw [replace_value, dif_pos (by norm_num [LEAF_NODE_SHIFT])]
    have h1 : (32 : Nat) ^ (0 + 1) = 32 := by norm_num
    rw [h1] at hi ⊢
    have h2 : (i >>> (5 * 0)) &&& BRANCHING_FACTOR_MASK = i % 32 := by
      rw [Nat.mul_zero, Nat.shiftRight_zero, and_mask_eq_mod]
    rw [h2, build_tree_zero, leaf_values, build_tree_zero]
    rw [List.set_append_left _ _ hi]
    rw [List.length_set]
  | succ k ih =>
    rw [replace_value, dif_neg (by rw [LEAF_NODE_SHIFT]; omega)]
    have hslot : (i >>> (5 * (k + 1))) &&& BRANCHING_FACTOR_MASK =
        i % 32 ^ (k + 1 + 1) / 32 ^ (k + 1) := by
      rw [shift_mask_eq, two_pow_mul_five, ← Nat.mod_mul_right_div_self, ← pow_succ]
    have hshift : 5 * (k + 1) - BRANCHING_FACTOR_SHIFT = 5 * k := by
      rw [BS_def]
      omega
    have hc0 : (32 : Nat) ^ (k + 1) ≠ 0 := pow32_ne_zero (k + 1)
    have hcap : i % 32 ^ (k + 1 + 1) < 32 ^ (k + 1 + 1) :=
      Nat.mod_lt _ (Nat.pos_of_ne_zero (pow32_ne_zero (k + 1 + 1)))
    -- abbreviations (kept as plain terms): j is the in-tree index, c the
    -- child capacity, s the root slot
    have hcs_le : 32 ^ (k + 1) * (i % 32 ^ (k + 1 + 1) / 32 ^ (k + 1)) ≤ i % 32 ^ (k + 1 + 1) :=
      Nat.mul_div_le _ _
    have hcs_lt : 32 ^ (k + 1) * (i % 32 ^ (k + 1 + 1) / 32 ^ (k + 1)) < l.length := by
      omega
    have hs_lt : i % 32 ^ (k + 1 + 1) / 32 ^ (k + 1) < (chunks (32 ^ (k + 1)) l).length :=
      lt_chunks_length hc0 l _ hcs_lt
    have hmod : i % 32 ^ (k + 1) = i % 32 ^ (k + 1 + 1) % 32 ^ (k + 1) := by
      rw [Nat.mod_mod_of_dvd]
      exact ⟨32, by rw [pow_succ]⟩
    have hjc : i % 32 ^ (k + 1 + 1) % 32 ^ (k + 1) =
        i % 32 ^ (k + 1 + 1) - 32 ^ (k + 1) * (i % 32 ^ (k + 1 + 1) / 32 ^ (k + 1)) := by
      have h2 := Nat.mod_add_div (i % 32 ^ (k + 1 + 1)) (32 ^ (k + 1))
      omega
    have hrc : i % 32 ^ (k + 1 + 1) % 32 ^ (k + 1) < 32 ^ (k + 1) :=
      Nat.mod_lt _ (Nat.pos_of_ne_zero hc0)
    rw [hslot, hshift, get_child_build_lt k l _ hs_lt]
    have hchunk_len :
        ((l.drop (32 ^ (k + 1) * (i % 32 ^ (k + 1 + 1) / 32 ^ (k + 1)))).take
          (32 ^ (k + 1))).length =
        min (32 ^ (k + 1))
          (l.length - 32 ^ (k + 1) * (i % 32 ^ (k + 1 + 1) / 32 ^ (k + 1))) := by
      simp [Nat.min_comm]
    have hchl : ((l.drop (32 ^ (k + 1) * (i % 32 ^ (k + 1 + 1) / 32 ^ (k + 1)))).take
        (32 ^ (k + 1))).length ≤ 32 ^ (k + 1) := by
      rw [hchunk_len]
      exact Nat.min_le_left _ _
    have hchi : i % 32 ^ (k + 1) < ((l.drop (32 ^ (k + 1) *
        (i % 32 ^ (k + 1 + 1) / 32 ^ (k + 1)))).take (32 ^ (k + 1))).length := by
      rw [hchunk_len, hmod, Nat.lt_min]
      constructor
      · exact hrc
      · rw [hjc]
        omega
    simp only []
    rw [ih _ hchl hchi]
    rw [build_tree_succ, get_child_array, build_tree_succ]
    congr 1
    have hlc2 : l.length ≤ 32 ^ (k + 2) := by
      have hp : (32 : Nat) ^ (k + 2) = 32 ^ (k + 1 + 1) := by ring
      omega
    have hnum_le := chunks_length_le k l hlc2
    have hnum_set : (chunks (32 ^ (k + 1)) (l.set (i % 32 ^ (k + 1 + 1)) v)).length =
        (chunks (32 ^ (k + 1)) l).length := by
      rw [chunks_length hc0, chunks_length hc0, List.length_set]
    apply ext_getD node_ref.null_node
    · rw [List.length_set, build_children_length k l hlc2,
        build_children_length k _ (by rw [List.length_set]; exact hlc2)]
    · intro t ht
      rw [List.length_set, build_children_length k l hlc2] at ht
      rcases eq_or_ne t (i % 32 ^ (k + 1 + 1) / 32 ^ (k + 1)) with hts | hts
      · -- the updated slot
        subst hts
        rw [getD_set_self _ _ _ _ (by rw [build_children_length k l hlc2]; omega)]
        rw [build_children_getD_lt k _ _ (by rw [hnum_set]; exact hs_lt)]
        congr 1
        rw [List.drop_set, if_neg (by omega), List.set_take]
        congr 1
        rw [hmod, hjc]
      · -- all other slots
        rw [getD_set_ne _ _ _ _ _ (Ne.symm hts)]
        rcases Nat.lt_or_ge t (chunks (32 ^ (k + 1)) l).length with htn | htn
        · rw [build_children_getD_lt k l t htn,
            build_children_getD_lt k _ t (by rw [hnum_set]; exact htn)]
          congr 1
          rcases Nat.lt_or_ge t (i % 32 ^ (k + 1 + 1) / 32 ^ (k + 1)) with htlt | htgt
          · -- window strictly before the update
            rw [List.drop_set, if_neg (by
              intro hcon
              have h4 : 32 ^ (k + 1) * (t + 1) ≤
                  32 ^ (k + 1) * (i % 32 ^ (k + 1 + 1) / 32 ^ (k + 1)) :=
                Nat.mul_le_mul_left _ (by omega)
              have h5 : 32 ^ (k + 1) * (t + 1) = 32 ^ (k + 1) * t + 32 ^ (k + 1) := by ring
              omega)]
            rw [List.set_take]
            rw [List.set_eq_of_length_le (by
              have h4 : 32 ^ (k + 1) * (t + 1) ≤
                  32 ^ (k + 1) * (i % 32 ^ (k + 1 + 1) / 32 ^ (k + 1)) :=
                Nat.mul_le_mul_left _ (by omega)
              have h5 : 32 ^ (k + 1) * (t + 1) = 32 ^ (k + 1) * t + 32 ^ (k + 1) := by ring
              simp
              omega)]
          · -- window strictly after the update
            have htgt' : i % 32 ^ (k + 1 + 1) / 32 ^ (k + 1) < t := by omega
            rw [List.drop_set, if_pos (by
              have h4 : 32 ^ (k + 1) * (i % 32 ^ (k + 1 + 1) / 32 ^ (k + 1) + 1) ≤
                  32 ^ (k + 1) * t := Nat.mul_le_mul_left _ (by omega)
              have h5 : 32 ^ (k + 1) * (i % 32 ^ (k + 1 + 1) / 32 ^ (k + 1) + 1) =
                  32 ^ (k + 1) * (i % 32 ^ (k + 1 + 1) / 32 ^ (k + 1)) + 32 ^ (k + 1) := by
                ring
              omega)]
        · rw [build_children_getD_ge k l t htn,
            build_children_getD_ge k _ t (by rw [hnum_set]; exact htn)]

/-! Window and chunk-count helpers for append-style operations. -/

/-- Windows fully inside `l` ignore an appended suffix. -/
theorem window_append_of_le {α : Type} (l xs : List α) {a c : Nat} (h : a + c ≤ l.length) :
    ((l ++ xs).drop a).take c = (l.drop a).take c := by
  rw [List.drop_append_of_le_length (by omega),
    List.take_append_of_le_length (by simp; omega)]

/-- The window spanning the end of `l` absorbs a small appended suffix. -/
theorem window_append_end {α : Type} (l xs : List α) {a c : Nat} (ha : a ≤ l.length)
    (h : l.length - a + xs.length ≤ c) :
    ((l ++ xs).drop a).take c = l.drop a ++ xs := by
  rw [List.drop_append_of_le_length ha, List.take_of_length_le (by simp; omega)]

theorem ceil_div_shift {c q r : Nat} (hc : c ≠ 0) (hr : 1 ≤ r) (hrc : r ≤ c) :
    (c * q + r + c - 1) / c = q + 1 := by
  have h3 : c * q + r + c - 1 = (r - 1) + c * (q + 1) := by
    have h1 : c * (q + 1) = c * q + c := by ring
    omega
  rw [h3, Nat.add_mul_div_left _ _ (Nat.pos_of_ne_zero hc)]
  have h4 : (r - 1) / c = 0 := Nat.div_eq_of_lt (by omega)
  omega

/-- Appending into the partial last chunk leaves the chunk count unchanged. -/
theorem chunks_length_append_partial {α : Type} {c : Nat} (hc : c ≠ 0) (l xs : List α)
    (hn : l.length % c ≠ 0) (hm : l.length % c + xs.length ≤ c) :
    (chunks c (l ++ xs)).length = (chunks c l).length := by
  rw [chunks_length hc, chunks_length hc, List.length_append]
  have hq := Nat.mod_add_div l.length c
  have h1 : l.length + xs.length + c - 1 =
      c * (l.length / c) + (l.length % c + xs.length) + c - 1 := by omega
  have h2 : l.length + c - 1 = c * (l.length / c) + l.length % c + c - 1 := by omega
  rw [h1, h2]
  rw [ceil_div_shift hc (by omega) (by omega)]
  rw [ceil_div_shift hc (by omega) (by omega)]

/-- Appending a fresh chunk after a chunk-aligned list adds one chunk. -/
theorem chunks_length_append_full {α : Type} {c : Nat} (hc : c ≠ 0) (l xs : List α)
    (hn : l.length % c = 0) (h0 : xs.length ≠ 0) (hm : xs.length ≤ c) :
    (chunks c (l ++ xs)).length = (chunks c l).length + 1 := by
  rw [chunks_length hc, chunks_length hc, List.length_append]
  have hq := Nat.mod_add_div l.length c
  have h1 : l.length + xs.length + c - 1 =
      c * (l.length / c) + xs.length + c - 1 := by omega
  rw [h1, ceil_div_shift hc (by omega) (by omega)]
  have h2 : l.length + c - 1 = (c - 1) + c * (l.length / c) := by omega
  rw [h2, Nat.add_mul_div_left _ _ (Nat.pos_of_ne_zero hc)]
  have h4 : (c - 1) / c = 0 := Nat.div_eq_of_lt (by omega)
  omega

/-- `replace_value` at index `l.length`, reachable only when the last leaf is
partial, grows the canonical tree by one value (the source's `push_back_1`
fast path writes into the first padding slot of the last leaf). -/
theorem replace_value_build_append {α : Type} [Inhabited α] (k : Nat) (l : List α) (i : Nat)
    (v : α) (hlc : l.length ≤ 32 ^ (k + 1)) (hm32 : l.length % 32 ≠ 0)
    (hi : i % 32 ^ (k + 1) = l.length) :
    replace_value (build_tree k l) (5 * k) i v = build_tree k (l ++ [v]) := by
  induction k generalizing l with
  | zero =>
    rw [replace_value, dif_pos (by norm_num [LEAF_NODE_SHIFT])]
    have h1 : (32 : Nat) ^ (0 + 1) = 32 := by norm_num
    rw [h1] at hlc hi
    have h2 : (i >>> (5 * 0)) &&& BRANCHING_FACTOR_MASK = i % 32 := by
      rw [Nat.mul_zero, Nat.shiftRight_zero, and_mask_eq_mod]
    have hlen_lt : l.length < 32 := by
      have := Nat.mod_lt i (show 0 < 32 by omega)
      omega
    rw [h2, hi, build_tree_zero, leaf_values, build_tree_zero]
    rw [List.set_append_right _ _ le_rfl, Nat.sub_self]
    have h3 : 32 - l.length = (32 - l.length - 1) + 1 := by omega
    rw [h3, List.replicate_succ, List.set_cons_zero]
    have h4 : 32 - (l ++ [v]).length = 32 - l.length - 1 := by
      simp only [List.length_append, List.length_singleton]
      omega
    rw [h4, List.append_assoc, List.singleton_append]
  | succ k ih =>
    rw [replace_value, dif_neg (by rw [LEAF_NODE_SHIFT]; omega)]
    have hslot : (i >>> (5 * (k + 1))) &&& BRANCHING_FACTOR_MASK =
        i % 32 ^ (k + 1 + 1) / 32 ^ (k + 1) := by
      rw [shift_mask_eq, two_pow_mul_five, ← Nat.mod_mul_right_div_self, ← pow_succ]
    have hshift : 5 * (k + 1) - BRANCHING_FACTOR_SHIFT = 5 * k := by
      rw [BS_def]
      omega
    have hc0 : (32 : Nat) ^ (k + 1) ≠ 0 := pow32_ne_zero (k + 1)
    rw [hslot, hshift, hi]
    have hmc : l.length % 32 ^ (k + 1) ≠ 0 := by
      intro h0
      have h1 : l.length % 32 ^ (k + 1) % 32 = l.length % 32 :=
        Nat.mod_mod_of_dvd _ ⟨32 ^ k, by rw [pow_succ]; ring⟩
      rw [h0] at h1
      exact hm32 h1.symm
    have hcs_le : 32 ^ (k + 1) * (l.length / 32 ^ (k + 1)) ≤ l.length :=
      Nat.mul_div_le _ _
    have hmod_lt : l.length % 32 ^ (k + 1) < 32 ^ (k + 1) :=
      Nat.mod_lt _ (Nat.pos_of_ne_zero hc0)
    have hmod_eq : l.length % 32 ^ (k + 1) =
        l.length - 32 ^ (k + 1) * (l.length / 32 ^ (k + 1)) := by
      have h2 := Nat.mod_add_div l.length (32 ^ (k + 1))
      omega
    have hcs_lt : 32 ^ (k + 1) * (l.length / 32 ^ (k + 1)) < l.length := by omega
    have hs_lt : l.length / 32 ^ (k + 1) < (chunks (32 ^ (k + 1)) l).length :=
      lt_chunks_length hc0 l _ hcs_lt
    rw [get_child_build_lt k l _ hs_lt]
    have hchunk_len :
        ((l.drop (32 ^ (k + 1) * (l.length / 32 ^ (k + 1)))).take (32 ^ (k + 1))).length =
        l.length % 32 ^ (k + 1) := by
      simp only [List.length_take, List.length_drop]
      omega
    have hch_mod : i % 32 ^ (k + 1) = l.length % 32 ^ (k + 1) := by
      have h3 : i % 32 ^ (k + 1 + 1) % 32 ^ (k + 1) = i % 32 ^ (k + 1) :=
        Nat.mod_mod_of_dvd _ ⟨32, by rw [pow_succ]⟩
      rw [← h3, hi]
    have hch_m32 :
        ((l.drop (32 ^ (k + 1) * (l.length / 32 ^ (k + 1)))).take (32 ^ (k + 1))).length %
          32 ≠ 0 := by
      rw [hchunk_len]
      have h1 : l.length % 32 ^ (k + 1) % 32 = l.length % 32 :=
        Nat.mod_mod_of_dvd _ ⟨32 ^ k, by rw [pow_succ]; ring⟩
      rw [h1]
      exact hm32
    simp only []
    rw [ih _ (by rw [hchunk_len]; omega) hch_m32 (by rw [hch_mod, hchunk_len])]
    rw [build_tree_succ, get_child_array, build_tree_succ]
    congr 1
    have hlc2 : l.length ≤ 32 ^ (k + 2) := by
      have hp : (32 : Nat) ^ (k + 2) = 32 ^ (k + 1 + 1) := by ring
      omega
    have hlc2' : (l ++ [v]).length ≤ 32 ^ (k + 2) := by
      simp only [List.length_append, List.length_singleton]
      have h5 : l.length < 32 ^ (k + 1 + 1) := by
        rcases Nat.lt_or_ge l.length (32 ^ (k + 1 + 1)) with h6 | h6
        · exact h6
        · have h7 : l.length = 32 ^ (k + 1 + 1) := by omega
          have h8 : (32 : Nat) ∣ l.length := by
            rw [h7]
            exact dvd_pow_self 32 (by omega)
          exact absurd (Nat.mod_eq_zero_of_dvd h8) hm32
      have hp : (32 : Nat) ^ (k + 2) = 32 ^ (k + 1 + 1) := by ring
      omega
    have hnum_le := chunks_length_le k l hlc2
    have hnum_app : (chunks (32 ^ (k + 1)) (l ++ [v])).length =
        (chunks (32 ^ (k + 1)) l).length :=
      chunks_length_append_partial hc0 l [v] hmc (by
        simp only [List.length_singleton]
        omega)
    apply ext_getD node_ref.null_node
    · rw [List.length_set, build_children_length k l hlc2,
        build_children_length k _ hlc2']
    · intro t ht
      rw [List.length_set, build_children_length k l hlc2] at ht
      rcases eq_or_ne t (l.length / 32 ^ (k + 1)) with hts | hts
      · subst hts
        rw [getD_set_self _ _ _ _ (by rw [build_children_length k l hlc2]; omega)]
        rw [build_children_getD_lt k _ _ (by rw [hnum_app]; exact hs_lt)]
        congr 1
        rw [window_append_end l [v] (by omega) (by
          simp only [List.length_singleton]
          omega)]
        rw [List.take_of_length_le (by simp only [List.length_drop]; omega)]
      · rw [getD_set_ne _ _ _ _ _ (Ne.symm hts)]
        rcases Nat.lt_or_ge t (chunks (32 ^ (k + 1)) l).length with htn | htn
        · rw [build_children_getD_lt k l t htn,
            build_children_getD_lt k _ t (by rw [hnum_app]; exact htn)]
          congr 1
          have htlt : t < l.length / 32 ^ (k + 1) := by
            rcases Nat.lt_or_ge t (l.length / 32 ^ (k + 1)) with h6 | h6
            · exact h6
            · exfalso
              have h7 : l.length / 32 ^ (k + 1) + 1 ≤ t := by omega
              have h8 : t < (l.length + 32 ^ (k + 1) - 1) / 32 ^ (k + 1) := by
                rw [← chunks_length hc0]
                exact htn
              have h9 : l.length + 32 ^ (k + 1) - 1 =
                  32 ^ (k + 1) * (l.length / 32 ^ (k + 1)) +
                    l.length % 32 ^ (k + 1) + 32 ^ (k + 1) - 1 := by omega
              rw [h9, ceil_div_shift hc0 (by omega) (by omega)] at h8
              omega
          rw [window_append_of_le l [v] (by
            have h4 : 32 ^ (k + 1) * (t + 1) ≤
                32 ^ (k + 1) * (l.length / 32 ^ (k + 1)) :=
              Nat.mul_le_mul_left _ (by omega)
            have h5 : 32 ^ (k + 1) * (t + 1) = 32 ^ (k + 1) * t + 32 ^ (k + 1) := by ring
            omega)]
        · rw [build_children_getD_ge k l t htn,
            build_children_getD_ge k _ t (by rw [hnum_app]; exact htn)]

theorem get_type_build_zero {α : Type} [Inhabited α] (l : List α) :
    get_type (build_tree 0 l) = node_type.leaf_node := by
  rw [build_tree_zero]
  rfl

theorem get_type_build_succ {α : Type} [Inhabited α] (k : Nat) (l : List α) :
    get_type (build_tree (k + 1) l) = node_type.inode := by
  rw [build_tree_succ]
  rfl

/-- A single small list has a single chunk. -/
theorem chunks_singleton {α : Type} {c : Nat} (hc : c ≠ 0) (xs : List α) (h0 : xs ≠ [])
    (hle : xs.length ≤ c) : chunks c xs = [xs] := by
  rw [chunks_cons hc xs h0, List.take_of_length_le hle,
    List.drop_eq_nil_of_le hle, chunks_nil]

/-- `make_new_path` builds the canonical spine over a single leaf. -/
theorem make_new_path_build {α : Type} [Inhabited α] (k : Nat) (xs : List α)
    (h0 : xs ≠ []) (hle : xs.length ≤ 32) :
    make_new_path (5 * k) (build_tree 0 xs) = build_tree k xs := by
  induction k with
  | zero =>
    rw [make_new_path, dif_pos (by norm_num [LEAF_NODE_SHIFT])]
  | succ k ih =>
    rw [make_new_path, dif_neg (by rw [LEAF_NODE_SHIFT]; omega)]
    have hshift : 5 * (k + 1) - BRANCHING_FACTOR_SHIFT = 5 * k := by
      rw [BS_def]
      omega
    rw [hshift, ih, build_tree_succ, build_children]
    have hle' : xs.length ≤ 32 ^ (k + 1) := by
      calc xs.length ≤ 32 := hle
      _ = 32 ^ 1 := (pow_one 32).symm
      _ ≤ 32 ^ (k + 1) := Nat.pow_le_pow_right (by omega) (by omega)
    rw [chunks_singleton (pow32_ne_zero (k + 1)) xs h0 hle']
    simp [B_def]

/-- `append_leaf_node` attaches the canonical leaf of `xs` as the new
rightmost leaf of the canonical tree of `l` (which must be leaf-aligned and
have room at its current height). -/
theorem append_leaf_build {α : Type} [Inhabited α] (k : Nat) (l xs : List α) (i : Nat)
    (hl0 : l ≠ []) (hl32 : l.length % 32 = 0)
    (hfit : l.length + xs.length ≤ 32 ^ (k + 1 + 1))
    (hxs0 : xs ≠ []) (hxs32 : xs.length ≤ 32)
    (hi : i % 32 ^ (k + 1 + 1) = l.length) :
    append_leaf_node (build_tree (k + 1) l) (5 * (k + 1)) i (build_tree 0 xs) =
      build_tree (k + 1) (l ++ xs) := by
  induction k generalizing l with
  | zero =>
    rw [append_leaf_node,
      dif_pos (by norm_num [LOWEST_LEVEL_INODE_SHIFT, BRANCHING_FACTOR_SHIFT])]
    have hslot : (i >>> (5 * (0 + 1))) &&& BRANCHING_FACTOR_MASK =
        i % 32 ^ (0 + 1 + 1) / 32 ^ (0 + 1) := by
      rw [shift_mask_eq, two_pow_mul_five, ← Nat.mod_mul_right_div_self, ← pow_succ]
    have hc0 : (32 : Nat) ^ (0 + 1) ≠ 0 := pow32_ne_zero (0 + 1)
    have hp1 : (32 : Nat) ^ (0 + 1) = 32 := by norm_num
    have hlen0 : l.length ≠ 0 := fun h => hl0 (List.length_eq_zero.mp h)
    rw [hslot, hi, hp1]
    have hnum : (chunks (32 ^ (0 + 1)) l).length = l.length / 32 := by
      rw [hp1, chunks_length (by omega)]
      have hq := Nat.mod_add_div l.length 32
      have h2 : l.length + 32 - 1 = (32 - 1) + 32 * (l.length / 32) := by omega
      rw [h2, Nat.add_mul_div_left _ _ (by omega)]
      have h4 : (32 - 1) / 32 = 0 := Nat.div_eq_of_lt (by omega)
      omega
    have hnum' : (chunks (32 ^ (0 + 1)) (l ++ xs)).length = l.length / 32 + 1 := by
      rw [chunks_length_append_full hc0 l xs (by rw [hp1]; omega)
        (fun h => hxs0 (List.length_eq_zero.mp h)) (by rw [hp1]; omega), hnum]
    have hfit2 : l.length + xs.length ≤ 32 ^ (0 + 2) := by
      have hp : (32 : Nat) ^ (0 + 2) = 32 ^ (0 + 1 + 1) := by ring
      omega
    have hxlen0 : xs.length ≠ 0 := fun h => hxs0 (List.length_eq_zero.mp h)
    have hnum_le' := chunks_length_le 0 (l ++ xs) (by
      simp only [List.length_append]
      omega)
    rw [hnum'] at hnum_le'
    have hsd : 32 * (l.length / 32) = l.length := by
      have hq := Nat.mod_add_div l.length 32
      omega
    rw [build_tree_succ, get_child_array, build_tree_succ]
    congr 1
    apply ext_getD node_ref.null_node
    · rw [List.length_set, build_children_length 0 l (by omega),
        build_children_length 0 _ (by simp only [List.length_append]; omega)]
    · intro t ht
      rw [List.length_set, build_children_length 0 l (by omega)] at ht
      rcases eq_or_ne t (l.length / 32) with hts | hts
      · subst hts
        rw [getD_set_self _ _ _ _ (by rw [build_children_length 0 l (by omega)]; omega)]
        rw [build_children_getD_lt 0 _ _ (by rw [hnum']; omega)]
        congr 1
        rw [hp1, hsd]
        rw [window_append_end l xs le_rfl (by omega)]
        rw [List.drop_eq_nil_of_le le_rfl, List.nil_append]
      · rw [getD_set_ne _ _ _ _ _ (Ne.symm hts)]
        rcases Nat.lt_or_ge t (chunks (32 ^ (0 + 1)) l).length with htn | htn
        · rw [build_children_getD_lt 0 l t htn,
            build_children_getD_lt 0 _ t (by rw [hnum']; rw [hnum] at htn; omega)]
          congr 1
          rw [hnum] at htn
          rw [window_append_of_le l xs (by rw [hp1]; omega)]
        · rw [build_children_getD_ge 0 l t htn,
            build_children_getD_ge 0 _ t (by rw [hnum', hnum] at *; omega)]
  | succ k ih =>
    rw [append_leaf_node, dif_neg (by rw [LOWEST_LEVEL_INODE_SHIFT, BS_def]; omega),
      dif_neg (by omega)]
    have hslot : (i >>> (5 * (k + 1 + 1))) &&& BRANCHING_FACTOR_MASK =
        i % 32 ^ (k + 1 + 1 + 1) / 32 ^ (k + 1 + 1) := by
      rw [shift_mask_eq, two_pow_mul_five, ← Nat.mod_mul_right_div_self, ← pow_succ]
    have hshift : 5 * (k + 1 + 1) - BRANCHING_FACTOR_SHIFT = 5 * (k + 1) := by
      rw [BS_def]
      omega
    have hc0 : (32 : Nat) ^ (k + 1 + 1) ≠ 0 := pow32_ne_zero _
    have hlen0 : l.length ≠ 0 := fun h => hl0 (List.length_eq_zero.mp h)
    have hxlen0 : xs.length ≠ 0 := fun h => hxs0 (List.length_eq_zero.mp h)
    rw [hslot, hshift, hi, build_tree_succ, get_child_array]
    have hd32 : (32 : Nat) ∣ 32 ^ (k + 1 + 1) := dvd_pow_self 32 (by omega)
    have hlc2 : l.length ≤ 32 ^ (k + 1 + 2) := by
      have hp : (32 : Nat) ^ (k + 1 + 2) = 32 ^ (k + 1 + 1 + 1) := by ring
      omega
    have hlc2' : (l ++ xs).length ≤ 32 ^ (k + 1 + 2) := by
      simp only [List.length_append]
      have hp : (32 : Nat) ^ (k + 1 + 2) = 32 ^ (k + 1 + 1 + 1) := by ring
      omega
    have hq := Nat.mod_add_div l.length (32 ^ (k + 1 + 1))
    rcases eq_or_ne (l.length % 32 ^ (k + 1 + 1)) 0 with hmc | hmc
    · -- chunk-aligned: the target slot is empty, a fresh spine is built
      have hsd : 32 ^ (k + 1 + 1) * (l.length / 32 ^ (k + 1 + 1)) = l.length := by omega
      have h32le : (32 : Nat) ≤ 32 ^ (k + 1 + 1) :=
        le_trans (le_of_eq (pow_one 32).symm) (Nat.pow_le_pow_right (by omega) (by omega))
      have hnum : (chunks (32 ^ (k + 1 + 1)) l).length = l.length / 32 ^ (k + 1 + 1) := by
        rw [chunks_length hc0]
        have h2 : l.length + 32 ^ (k + 1 + 1) - 1 =
            (32 ^ (k + 1 + 1) - 1) + 32 ^ (k + 1 + 1) * (l.length / 32 ^ (k + 1 + 1)) := by
          omega
        rw [h2, Nat.add_mul_div_left _ _ (Nat.pos_of_ne_zero hc0)]
        have h4 : (32 ^ (k + 1 + 1) - 1) / 32 ^ (k + 1 + 1) = 0 :=
          Nat.div_eq_of_lt (by omega)
        omega
      have hnum_app : (chunks (32 ^ (k + 1 + 1)) (l ++ xs)).length =
          l.length / 32 ^ (k + 1 + 1) + 1 := by
        rw [chunks_length_append_full hc0 l xs hmc hxlen0 (by omega), hnum]
      have hnum_le' := chunks_length_le (k + 1) (l ++ xs) hlc2'
      rw [hnum_app] at hnum_le'
      have hchild : (build_children (k + 1) l).getD (l.length / 32 ^ (k + 1 + 1))
          node_ref.null_node = node_ref.null_node :=
        build_children_getD_ge (k + 1) l _ (by rw [hnum])
      rw [hchild]
      simp only [get_type]
      rw [if_pos trivial, make_new_path_build (k + 1) xs hxs0 hxs32]
      conv_rhs => rw [build_tree_succ]
      congr 1
      apply ext_getD node_ref.null_node
      · rw [List.length_set, build_children_length (k + 1) l hlc2,
          build_children_length (k + 1) _ hlc2']
      · intro t ht
        rw [List.length_set, build_children_length (k + 1) l hlc2] at ht
        rcases eq_or_ne t (l.length / 32 ^ (k + 1 + 1)) with hts | hts
        · subst hts
          rw [getD_set_self _ _ _ _ (by
            rw [build_children_length (k + 1) l hlc2]
            omega)]
          rw [build_children_getD_lt (k + 1) _ _ (by rw [hnum_app]; omega)]
          congr 1
          rw [hsd, window_append_end l xs le_rfl (by omega)]
          rw [List.drop_eq_nil_of_le le_rfl, List.nil_append]
        · rw [getD_set_ne _ _ _ _ _ (Ne.symm hts)]
          rcases Nat.lt_or_ge t (chunks (32 ^ (k + 1 + 1)) l).length with htn | htn
          · rw [build_children_getD_lt (k + 1) l t htn,
              build_children_getD_lt (k + 1) _ t (by rw [hnum_app]; rw [hnum] at htn; omega)]
            congr 1
            rw [hnum] at htn
            refine (window_append_of_le l xs ?_).symm
            have h4 : 32 ^ (k + 1 + 1) * (t + 1) ≤
                32 ^ (k + 1 + 1) * (l.length / 32 ^ (k + 1 + 1)) :=
              Nat.mul_le_mul_left _ (by omega)
            have h5 : 32 ^ (k + 1 + 1) * (t + 1) =
                32 ^ (k + 1 + 1) * t + 32 ^ (k + 1 + 1) := by ring
            omega
          · rw [build_children_getD_ge (k + 1) l t htn,
              build_children_getD_ge (k + 1) _ t (by
                rw [hnum_app]
                rw [hnum] at htn
                omega)]
    · -- partial last chunk: recurse into it
      have hc32 : 32 ^ (k + 1 + 1) % 32 = 0 := Nat.mod_eq_zero_of_dvd hd32
      have hmod_lt : l.length % 32 ^ (k + 1 + 1) < 32 ^ (k + 1 + 1) :=
        Nat.mod_lt _ (Nat.pos_of_ne_zero hc0)
      have hcs_lt : 32 ^ (k + 1 + 1) * (l.length / 32 ^ (k + 1 + 1)) < l.length := by omega
      have hs_lt : l.length / 32 ^ (k + 1 + 1) < (chunks (32 ^ (k + 1 + 1)) l).length :=
        lt_chunks_length hc0 l _ hcs_lt
      have hchild := build_children_getD_lt (k + 1) l _ hs_lt
      rw [hchild]
      simp only []
      rw [if_neg (by rw [get_type_build_succ]; intro h; cases h)]
      have hchunk_len :
          ((l.drop (32 ^ (k + 1 + 1) * (l.length / 32 ^ (k + 1 + 1)))).take
            (32 ^ (k + 1 + 1))).length = l.length % 32 ^ (k + 1 + 1) := by
        simp only [List.length_take, List.length_drop]
        omega
      have hchunk_m32 : l.length % 32 ^ (k + 1 + 1) % 32 = 0 := by
        rw [Nat.mod_mod_of_dvd _ hd32]
        exact hl32
      have hih := ih ((l.drop (32 ^ (k + 1 + 1) * (l.length / 32 ^ (k + 1 + 1)))).take
          (32 ^ (k + 1 + 1)))
        (by
          intro h
          have h6 := congrArg List.length h
          rw [hchunk_len] at h6
          exact hmc h6)
        (by rw [hchunk_len]; exact hchunk_m32)
        (by rw [hchunk_len]; omega)
        (by
          rw [hchunk_len]
          have h8 : i % 32 ^ (k + 1 + 1) = i % 32 ^ (k + 1 + 1 + 1) % 32 ^ (k + 1 + 1) :=
            (Nat.mod_mod_of_dvd _ ⟨32, by rw [pow_succ]⟩).symm
          rw [h8, hi])
      rw [hih]
      conv_rhs => rw [build_tree_succ]
      congr 1
      have hnum_app : (chunks (32 ^ (k + 1 + 1)) (l ++ xs)).length =
          (chunks (32 ^ (k + 1 + 1)) l).length :=
        chunks_length_append_partial hc0 l xs hmc (by omega)
      have hnum_p : (chunks (32 ^ (k + 1 + 1)) l).length =
          l.length / 32 ^ (k + 1 + 1) + 1 := by
        rw [chunks_length hc0]
        have h9 : l.length + 32 ^ (k + 1 + 1) - 1 =
            32 ^ (k + 1 + 1) * (l.length / 32 ^ (k + 1 + 1)) +
              l.length % 32 ^ (k + 1 + 1) + 32 ^ (k + 1 + 1) - 1 := by omega
        rw [h9, ceil_div_shift hc0 (by omega) (by omega)]
      apply ext_getD node_ref.null_node
      · rw [List.length_set, build_children_length (k + 1) l hlc2,
          build_children_length (k + 1) _ hlc2']
      · intro t ht
        rw [List.length_set, build_children_length (k + 1) l hlc2] at ht
        rcases eq_or_ne t (l.length / 32 ^ (k + 1 + 1)) with hts | hts
        · subst hts
          rw [getD_set_self _ _ _ _ (by
            rw [build_children_length (k + 1) l hlc2]
            have := chunks_length_le (k + 1) l hlc2
            omega)]
          rw [build_children_getD_lt (k + 1) _ _ (by rw [hnum_app]; exact hs_lt)]
          congr 1
          rw [window_append_end l xs (by omega) (by omega)]
          rw [List.take_of_length_le (by simp only [List.length_drop]; omega)]
        · rw [getD_set_ne _ _ _ _ _ (Ne.symm hts)]
          rcases Nat.lt_or_ge t (chunks (32 ^ (k + 1 + 1)) l).length with htn | htn
          · rw [build_children_getD_lt (k + 1) l t htn,
              build_children_getD_lt (k + 1) _ t (by rw [hnum_app]; exact htn)]
            congr 1
            have htlt : t < l.length / 32 ^ (k + 1 + 1) := by
              rw [hnum_p] at htn
              omega
            refine (window_append_of_le l xs ?_).symm
            have h4 : 32 ^ (k + 1 + 1) * (t + 1) ≤
                32 ^ (k + 1 + 1) * (l.length / 32 ^ (k + 1 + 1)) :=
              Nat.mul_le_mul_left _ (by omega)
            have h5 : 32 ^ (k + 1 + 1) * (t + 1) =
                32 ^ (k + 1 + 1) * t + 32 ^ (k + 1 + 1) := by ring
            omega
          · rw [build_children_getD_ge (k + 1) l t htn,
              build_children_getD_ge (k + 1) _ t (by rw [hnum_app]; exact htn)]

/-- `replace_leaf_node` with the refilled last leaf publishes the batch's
first phase: the canonical tree of `l ++ xs` for `xs` fitting into the
partial last leaf of `l`. -/
theorem replace_leaf_build {α : Type} [Inhabited α] (k : Nat) (l xs : List α) (i : Nat)
    (hlc : l.length ≤ 32 ^ (k + 1)) (hm32 : l.length % 32 ≠ 0)
    (hfit : l.length % 32 + xs.length ≤ 32)
    (hi : i % 32 ^ (k + 1) = 32 * (l.length / 32)) :
    replace_leaf_node (build_tree k l) (5 * k) i
        (build_tree 0 (l.drop (32 * (l.length / 32)) ++ xs)) =
      build_tree k (l ++ xs) := by
  induction k generalizing l with
  | zero =>
    rw [replace_leaf_node, dif_pos (by norm_num [LEAF_NODE_SHIFT])]
    have h1 : (32 : Nat) ^ (0 + 1) = 32 := by norm_num
    rw [h1] at hlc
    have hdz : l.length / 32 = 0 := Nat.div_eq_of_lt (by omega)
    rw [hdz, Nat.mul_zero, List.drop_zero]
  | succ k ih =>
    rw [replace_leaf_node, dif_neg (by rw [LEAF_NODE_SHIFT]; omega)]
    have hslot : (i >>> (5 * (k + 1))) &&& BRANCHING_FACTOR_MASK =
        i % 32 ^ (k + 1 + 1) / 32 ^ (k + 1) := by
      rw [shift_mask_eq, two_pow_mul_five, ← Nat.mod_mul_right_div_self, ← pow_succ]
    have hshift : 5 * (k + 1) - BRANCHING_FACTOR_SHIFT = 5 * k := by
      rw [BS_def]
      omega
    have hc0 : (32 : Nat) ^ (k + 1) ≠ 0 := pow32_ne_zero (k + 1)
    have hd32 : (32 : Nat) ∣ 32 ^ (k + 1) := dvd_pow_self 32 (by omega)
    have hc32 : 32 ^ (k + 1) % 32 = 0 := Nat.mod_eq_zero_of_dvd hd32
    have hq := Nat.mod_add_div l.length (32 ^ (k + 1))
    have hq32 := Nat.mod_add_div l.length 32
    have hmc : l.length % 32 ^ (k + 1) ≠ 0 := by
      intro h0
      have h1 : l.length % 32 ^ (k + 1) % 32 = l.length % 32 := Nat.mod_mod_of_dvd _ hd32
      rw [h0] at h1
      exact hm32 h1.symm
    have hr32 : l.length % 32 ^ (k + 1) % 32 = l.length % 32 := Nat.mod_mod_of_dvd _ hd32
    have hrq32 := Nat.mod_add_div (l.length % 32 ^ (k + 1)) 32
    have hmod_lt : l.length % 32 ^ (k + 1) < 32 ^ (k + 1) :=
      Nat.mod_lt _ (Nat.pos_of_ne_zero hc0)
    have hbase : 32 * (l.length / 32) = l.length - l.length % 32 := by omega
    have hbase_split : 32 * (l.length / 32) =
        (l.length % 32 ^ (k + 1) - l.length % 32) +
          32 ^ (k + 1) * (l.length / 32 ^ (k + 1)) := by omega
    have hbs : 32 * (l.length / 32) / 32 ^ (k + 1) = l.length / 32 ^ (k + 1) := by
      rw [hbase_split, Nat.add_mul_div_left _ _ (Nat.pos_of_ne_zero hc0)]
      have h2 : (l.length % 32 ^ (k + 1) - l.length % 32) / 32 ^ (k + 1) = 0 :=
        Nat.div_eq_of_lt (by omega)
      omega
    have hcs_lt : 32 ^ (k + 1) * (l.length / 32 ^ (k + 1)) < l.length := by omega
    have hs_lt : l.length / 32 ^ (k + 1) < (chunks (32 ^ (k + 1)) l).length :=
      lt_chunks_length hc0 l _ hcs_lt
    rw [hslot, hshift, hi, hbs, get_child, build_tree_succ]
    rw [show get_child_array (node_ref.inode (build_children k l)) = build_children k l
      from rfl]
    rw [build_children_getD_lt k l _ hs_lt]
    have hchunk_len :
        ((l.drop (32 ^ (k + 1) * (l.length / 32 ^ (k + 1)))).take (32 ^ (k + 1))).length =
        l.length % 32 ^ (k + 1) := by
      simp only [List.length_take, List.length_drop]
      omega
    have hih := ih ((l.drop (32 ^ (k + 1) * (l.length / 32 ^ (k + 1)))).take (32 ^ (k + 1)))
      (by rw [hchunk_len]; omega)
      (by rw [hchunk_len, hr32]; exact hm32)
      (by rw [hchunk_len, hr32]; exact hfit)
      (by
        rw [hchunk_len]
        have h8 : i % 32 ^ (k + 1) = i % 32 ^ (k + 1 + 1) % 32 ^ (k + 1) :=
          (Nat.mod_mod_of_dvd _ ⟨32, by rw [pow_succ]⟩).symm
        rw [h8, hi, hbase_split, Nat.add_mul_mod_self_left]
        have h9 : l.length % 32 ^ (k + 1) - l.length % 32 < 32 ^ (k + 1) := by omega
        rw [Nat.mod_eq_of_lt h9]
        omega)
    have hchunk_drop :
        ((l.drop (32 ^ (k + 1) * (l.length / 32 ^ (k + 1)))).take (32 ^ (k + 1))).drop
          (32 * (((l.drop (32 ^ (k + 1) * (l.length / 32 ^ (k + 1)))).take
            (32 ^ (k + 1))).length / 32)) =
        l.drop (32 * (l.length / 32)) := by
      rw [hchunk_len]
      rw [List.drop_take, List.drop_drop]
      have h10 : 32 ^ (k + 1) * (l.length / 32 ^ (k + 1)) +
          32 * (l.length % 32 ^ (k + 1) / 32) = 32 * (l.length / 32) := by
        have h11 : 32 * (l.length % 32 ^ (k + 1) / 32) =
            l.length % 32 ^ (k + 1) - l.length % 32 := by omega
        omega
      rw [h10]
      refine List.take_of_length_le ?_
      simp only [List.length_drop]
      omega
    rw [hchunk_drop] at hih
    simp only []
    rw [hih]
    conv_rhs => rw [build_tree_succ]
    congr 1
    have hlc2 : l.length ≤ 32 ^ (k + 2) := by
      have hp : (32 : Nat) ^ (k + 2) = 32 ^ (k + 1 + 1) := by ring
      have hp2 : (32 : Nat) ^ (k + 1) ≤ 32 ^ (k + 1 + 1) :=
        Nat.pow_le_pow_right (by omega) (by omega)
      omega
    have hc32' : 32 ^ (k + 1 + 1) % 32 = 0 :=
      Nat.mod_eq_zero_of_dvd (dvd_pow_self 32 (by omega))
    have hlc2' : (l ++ xs).length ≤ 32 ^ (k + 2) := by
      simp only [List.length_append]
      have hp : (32 : Nat) ^ (k + 2) = 32 ^ (k + 1 + 1) := by ring
      omega
    have hnum_app : (chunks (32 ^ (k + 1)) (l ++ xs)).length =
        (chunks (32 ^ (k + 1)) l).length :=
      chunks_length_append_partial hc0 l xs hmc (by omega)
    have hnum_p : (chunks (32 ^ (k + 1)) l).length =
        l.length / 32 ^ (k + 1) + 1 := by
      rw [chunks_length hc0]
      have h9 : l.length + 32 ^ (k + 1) - 1 =
          32 ^ (k + 1) * (l.length / 32 ^ (k + 1)) +
            l.length % 32 ^ (k + 1) + 32 ^ (k + 1) - 1 := by omega
      rw [h9, ceil_div_shift hc0 (by omega) (by omega)]
    apply ext_getD node_ref.null_node
    · rw [List.length_set, build_children_length k l hlc2,
        build_children_length k _ hlc2']
    · intro t ht
      rw [List.length_set, build_children_length k l hlc2] at ht
      rcases eq_or_ne t (l.length / 32 ^ (k + 1)) with hts | hts
      · subst hts
        rw [getD_set_self _ _ _ _ (by
          rw [build_children_length k l hlc2]
          have := chunks_length_le k l hlc2
          omega)]
        rw [build_children_getD_lt k _ _ (by rw [hnum_app]; exact hs_lt)]
        congr 1
        rw [window_append_end l xs (by omega) (by omega)]
        rw [List.take_of_length_le (by simp only [List.length_drop]; omega)]
      · rw [getD_set_ne _ _ _ _ _ (Ne.symm hts)]
        rcases Nat.lt_or_ge t (chunks (32 ^ (k + 1)) l).length with htn | htn
        · rw [build_children_getD_lt k l t htn,
            build_children_getD_lt k _ t (by rw [hnum_app]; exact htn)]
          congr 1
          have htlt : t < l.length / 32 ^ (k + 1) := by
            rw [hnum_p] at htn
            omega
          refine (window_append_of_le l xs ?_).symm
          have h4 : 32 ^ (k + 1) * (t + 1) ≤
              32 ^ (k + 1) * (l.length / 32 ^ (k + 1)) :=
            Nat.mul_le_mul_left _ (by omega)
          have h5 : 32 ^ (k + 1) * (t + 1) = 32 ^ (k + 1) * t + 32 ^ (k + 1) := by ring
          omega
        · rw [build_children_getD_ge k l t htn,
            build_children_getD_ge k _ t (by rw [hnum_app]; exact htn)]

theorem of_list_eq_mk {α : Type} [Inhabited α] {l : List α} (h0 : l ≠ []) :
    of_list l = vector.mk (build_tree (size_to_levels l.length) l) l.length
      ((5 * size_to_levels l.length : Nat) : Int) := by
  have hlen : l.length ≠ 0 := fun h => h0 (List.length_eq_zero.mp h)
  rw [of_list, vector_size_to_shift_pos hlen]
  simp [hlen]

theorem shift_to_max_size_eq (K : Nat) : shift_to_max_size (5 * K) = 32 ^ (K + 1) := by
  rw [shift_to_max_size]
  simp only [B_def, BS_def]
  rw [Nat.mul_div_cancel_left K (by omega)]

/-- `push_back_leaf_node` appends a whole canonical leaf (`1 ≤ m ≤ 32`
values) to a leaf-aligned canonical vector, growing the root exactly when the
current height is full. -/
theorem push_back_leaf_build {α : Type} [Inhabited α] (l xs : List α)
    (hl32 : l.length % 32 = 0) (hxs0 : xs ≠ []) (hxs32 : xs.length ≤ 32) :
    push_back_leaf_node (of_list l) (build_tree 0 xs) xs.length = of_list (l ++ xs) := by
  have hxlen0 : xs.length ≠ 0 := fun h => hxs0 (List.length_eq_zero.mp h)
  rcases eq_or_ne l [] with rfl | hne
  · rw [push_back_leaf_node]
    simp only [of_list_size, List.length_nil, if_pos rfl, List.nil_append]
    rw [of_list_eq_mk hxs0, size_to_levels_of_le hxs32]
    simp [LEAF_NODE_SHIFT]
  · have hlen0 : l.length ≠ 0 := fun h => hne (List.length_eq_zero.mp h)
    have hcap := le_pow_size_to_levels l.length
    have hne' : l ++ xs ≠ [] := fun h => hne (List.append_eq_nil.mp h).1
    have h32K : (32 : Nat) ≤ 32 ^ (size_to_levels l.length + 1) :=
      le_trans (le_of_eq (pow_one 32).symm) (Nat.pow_le_pow_right (by omega) (by omega))
    rw [push_back_leaf_node]
    simp only [of_list_size, if_neg hlen0]
    rw [of_list_shift_toNat hne, shift_to_max_size_eq]
    split_ifs with hfits
    · -- fits in the current root
      cases hK : size_to_levels l.length with
      | zero =>
        exfalso
        rw [hK] at hfits hcap
        have hp : (32 : Nat) ^ (0 + 1) = 32 := by norm_num
        omega
      | succ K =>
        rw [hK] at hfits hcap
        rw [of_list_root hne, hK]
        rw [append_leaf_build K l xs l.length hne hl32 hfits hxs0 hxs32
          (Nat.mod_eq_of_lt (by omega))]
        have hlev : size_to_levels (l ++ xs).length = K + 1 := by
          rw [List.length_append]
          have h1 : size_to_levels (l.length + xs.length) ≤ K + 1 :=
            size_to_levels_le _ _ hfits
          have h2 : size_to_levels l.length ≤ size_to_levels (l.length + xs.length) :=
            size_to_levels_mono (by omega)
          rw [hK] at h2
          omega
        rw [of_list_eq_mk hne', hlev]
        simp only [vector.mk.injEq]
        refine ⟨trivial, ?_, ?_⟩
        · rw [List.length_append]
        · rw [of_list_shift, vector_size_to_shift_pos hlen0, hK]
    · -- root is full: level promotion
      have hfull : l.length = 32 ^ (size_to_levels l.length + 1) := by
        have hc32' : 32 ^ (size_to_levels l.length + 1) % 32 = 0 :=
          Nat.mod_eq_zero_of_dvd (dvd_pow_self 32 (by omega))
        omega
      rw [make_new_path_build (size_to_levels l.length) xs hxs0 hxs32,
        of_list_root hne]
      have hlev : size_to_levels (l ++ xs).length = size_to_levels l.length + 1 := by
        rw [List.length_append]
        have h1 : size_to_levels (l.length + xs.length) ≤ size_to_levels l.length + 1 := by
          refine size_to_levels_le _ _ ?_
          have h2 : (32 : Nat) ^ (size_to_levels l.length + 1 + 1) =
              32 * 32 ^ (size_to_levels l.length + 1) := pow_succ' 32 _
          have h3 : (32 : Nat) ≤ 32 ^ (size_to_levels l.length + 1) := h32K
          omega
        have h2 : ¬size_to_levels (l.length + xs.length) ≤ size_to_levels l.length := by
          intro h3
          rw [size_to_levels_le_iff] at h3
          omega
        omega
      rw [of_list_eq_mk hne', hlev]
      simp only [vector.mk.injEq]
      refine ⟨?_, ?_, ?_⟩
      · rw [build_tree_succ, build_children]
        have hchunks : chunks (32 ^ (size_to_levels l.length + 1)) (l ++ xs) = [l, xs] := by
          rw [chunks_cons (pow32_ne_zero _) _ hne',
            List.take_left' hfull, List.drop_left' hfull,
            chunks_singleton (pow32_ne_zero _) xs hxs0 (by omega)]
        rw [hchunks]
        simp [B_def]
      · rw [List.length_append]
      · rw [of_list_shift, vector_size_to_shift_pos hlen0, BS_def]
        push_cast
        ring

/-- `push_back_1` maps the canonical vector of `l` to that of `l ++ [v]`. -/
theorem push_back_1_build {α : Type} [Inhabited α] (l : List α) (v : α) :
    push_back_1 (of_list l) v = of_list (l ++ [v]) := by
  rw [push_back_1]
  simp only [of_list_size, and_mask_eq_mod]
  split_ifs with hpart
  · -- partial last leaf: store into the padding slot
    have hlen0 : l.length ≠ 0 := by omega
    have hne : l ≠ [] := fun h => hlen0 (by rw [h]; rfl)
    have hne' : l ++ [v] ≠ [] := fun h => hne (List.append_eq_nil.mp h).1
    have hcap := le_pow_size_to_levels l.length
    have hcap32 : 32 ^ (size_to_levels l.length + 1) % 32 = 0 :=
      Nat.mod_eq_zero_of_dvd (dvd_pow_self 32 (by omega))
    have hlt : l.length < 32 ^ (size_to_levels l.length + 1) := by omega
    rw [of_list_root hne, of_list_shift_toNat hne]
    rw [replace_value_build_append (size_to_levels l.length) l l.length v
      (le_pow_size_to_levels l.length) hpart (Nat.mod_eq_of_lt hlt)]
    have hlev : size_to_levels (l ++ [v]).length = size_to_levels l.length := by
      simp only [List.length_append, List.length_singleton]
      have h1 : size_to_levels (l.length + 1) ≤ size_to_levels l.length :=
        size_to_levels_le _ _ (by omega)
      have h2 : size_to_levels l.length ≤ size_to_levels (l.length + 1) :=
        size_to_levels_mono (by omega)
      omega
    rw [of_list_eq_mk hne', hlev]
    simp only [vector.mk.injEq]
    refine ⟨trivial, ?_, ?_⟩
    · simp
    · rw [of_list_shift, vector_size_to_shift_pos hlen0]
  · -- leaf-aligned: attach a fresh one-value leaf
    have hl32 : l.length % 32 = 0 := by omega
    have hleaf : node_ref.leaf_node (v :: List.replicate (BRANCHING_FACTOR - 1) default) =
        build_tree 0 ([v] : List α) := by
      rw [build_tree_zero]
      simp [B_def]
    rw [hleaf]
    have h := push_back_leaf_build l [v] hl32 (by simp) (by simp)
    simp only [List.length_singleton] at h
    exact h

/-- One iteration of the whole-leaf drip loop preserves canonicity; by
induction the loop appends the remaining window of the source buffer. -/
theorem push_back_batch_loop_build {α : Type} [Inhabited α] (fuel : Nat) (m values : List α)
    (source_pos count : Nat) (hfuel : count - source_pos ≤ fuel)
    (hcnt : count ≤ values.length)
    (hal : m.length % 32 = 0 ∨ count ≤ source_pos) :
    push_back_batch_loop (of_list m) values source_pos count =
      of_list (m ++ (values.drop source_pos).take (count - source_pos)) := by
  induction fuel generalizing m source_pos with
  | zero =>
    rw [push_back_batch_loop, dif_neg (by omega)]
    have h0 : count - source_pos = 0 := by omega
    rw [h0]
    simp
  | succ fuel ih =>
    rcases Nat.lt_or_ge source_pos count with hlt | hge
    · rw [push_back_batch_loop, dif_pos hlt]
      simp only []
      have hal' : m.length % 32 = 0 := by
        rcases hal with h | h
        · exact h
        · omega
      have hbatch_le : min (count - source_pos) BRANCHING_FACTOR ≤ 32 := by
        rw [B_def]
        omega
      have hbatch_pos : 0 < min (count - source_pos) BRANCHING_FACTOR := by
        rw [B_def]
        omega
      have hbatch_cnt : min (count - source_pos) BRANCHING_FACTOR ≤ count - source_pos :=
        Nat.min_le_left _ _
      have hseg_len : ((values.drop source_pos).take
          (min (count - source_pos) BRANCHING_FACTOR)).length =
          min (count - source_pos) BRANCHING_FACTOR := by
        simp only [List.length_take, List.length_drop]
        omega
      have hleaf : node_ref.leaf_node ((values.drop source_pos).take
            (min (count - source_pos) BRANCHING_FACTOR) ++
          List.replicate (BRANCHING_FACTOR - min (count - source_pos) BRANCHING_FACTOR)
            default) =
          build_tree 0 ((values.drop source_pos).take
            (min (count - source_pos) BRANCHING_FACTOR)) := by
        rw [build_tree_zero, hseg_len, B_def]
      rw [hleaf]
      have hstep := push_back_leaf_build m
        ((values.drop source_pos).take (min (count - source_pos) BRANCHING_FACTOR))
        hal'
        (List.ne_nil_of_length_pos (by rw [hseg_len]; exact hbatch_pos))
        (by rw [hseg_len]; exact hbatch_le)
      rw [hseg_len] at hstep
      rw [hstep]
      have hdisj : (m ++ (values.drop source_pos).take
          (min (count - source_pos) BRANCHING_FACTOR)).length % 32 = 0 ∨
          count ≤ source_pos + min (count - source_pos) BRANCHING_FACTOR := by
        simp only [List.length_append, hseg_len]
        rcases Nat.le_total (count - source_pos) BRANCHING_FACTOR with h | h
        · right
          rw [Nat.min_eq_left h]
          omega
        · left
          rw [Nat.min_eq_right h, B_def]
          omega
      rw [ih _ _ (by omega) hdisj]
      congr 1
      rw [List.append_assoc]
      congr 1
      have hdd : values.drop (source_pos + min (count - source_pos) BRANCHING_FACTOR) =
          (values.drop source_pos).drop (min (count - source_pos) BRANCHING_FACTOR) :=
        (List.drop_drop _ _ _).symm
      rw [hdd, ← List.take_add]
      congr 1
      omega
    · rw [push_back_batch_loop, dif_neg (by omega)]
      have h0 : count - source_pos = 0 := by omega
      rw [h0]
      simp

/-- `push_back_batch` appends the first `count` buffer values to a canonical
vector. -/
theorem push_back_batch_build {α : Type} [Inhabited α] (l values : List α) (count : Nat)
    (hcnt : count ≤ values.length) :
    push_back_batch (of_list l) values count = of_list (l ++ values.take count) := by
  rw [push_back_batch]
  simp only [of_list_size, and_mask_eq_mod, B_def]
  split_ifs with hpart
  · -- phase 1: top up the partial last leaf, then drip whole leaves
    have hlen0 : l.length ≠ 0 := by omega
    have hne : l ≠ [] := fun h => hlen0 (by rw [h]; rfl)
    have hq32 := Nat.mod_add_div l.length 32
    have hcap := le_pow_size_to_levels l.length
    have hcap32 : 32 ^ (size_to_levels l.length + 1) % 32 = 0 :=
      Nat.mod_eq_zero_of_dvd (dvd_pow_self 32 (by omega))
    have hdiv_eq : (l.length - l.length % 32) / 32 = l.length / 32 := by omega
    have hbase_lt : l.length - l.length % 32 < l.length := by omega
    have hfind := find_leaf_node_of_list l (l.length - l.length % 32) hbase_lt
    rw [hdiv_eq] at hfind
    rw [hfind, build_tree_zero, leaf_values]
    have hchunk_len : ((l.drop (32 * (l.length / 32))).take 32).length =
        l.length % 32 := by
      simp only [List.length_take, List.length_drop]
      omega
    have htake_front : (((l.drop (32 * (l.length / 32))).take 32 ++
        List.replicate (32 - ((l.drop (32 * (l.length / 32))).take 32).length)
          default).take (l.length % 32)) =
        l.drop (32 * (l.length / 32)) := by
      rw [List.take_append_of_le_length (by rw [hchunk_len])]
      rw [List.take_take, Nat.min_eq_left (by omega)]
      refine List.take_of_length_le ?_
      simp only [List.length_drop]
      omega
    rw [htake_front]
    have hcc_le : min (32 - l.length % 32) count ≤ 32 - l.length % 32 :=
      Nat.min_le_left _ _
    have hcc_cnt : min (32 - l.length % 32) count ≤ count := Nat.min_le_right _ _
    have htk_len : (values.take (min (32 - l.length % 32) count)).length =
        min (32 - l.length % 32) count := by
      simp only [List.length_take]
      omega
    have hleaf : node_ref.leaf_node (l.drop (32 * (l.length / 32)) ++
          values.take (min (32 - l.length % 32) count) ++
          List.replicate (32 - l.length % 32 - min (32 - l.length % 32) count) default) =
        build_tree 0 (l.drop (32 * (l.length / 32)) ++
          values.take (min (32 - l.length % 32) count)) := by
      rw [build_tree_zero]
      have hlen_eq : 32 - l.length % 32 - min (32 - l.length % 32) count =
          32 - (l.drop (32 * (l.length / 32)) ++
            values.take (min (32 - l.length % 32) count)).length := by
        simp only [List.length_append, List.length_drop, htk_len]
        omega
      rw [hlen_eq, List.append_assoc]
    rw [hleaf, of_list_root hne, of_list_shift_toNat hne]
    have hi_mod : (l.length - l.length % 32) % 32 ^ (size_to_levels l.length + 1) =
        32 * (l.length / 32) := by
      rw [Nat.mod_eq_of_lt (by omega)]
      omega
    rw [replace_leaf_build (size_to_levels l.length) l
      (values.take (min (32 - l.length % 32) count)) (l.length - l.length % 32)
      hcap hpart.ne' (by rw [htk_len]; omega) hi_mod]
    have hlev : size_to_levels (l ++ values.take (min (32 - l.length % 32) count)).length =
        size_to_levels l.length := by
      simp only [List.length_append, htk_len]
      have h1 : size_to_levels (l.length + min (32 - l.length % 32) count) ≤
          size_to_levels l.length :=
        size_to_levels_le _ _ (by omega)
      have h2 : size_to_levels l.length ≤
          size_to_levels (l.length + min (32 - l.length % 32) count) :=
        size_to_levels_mono (by omega)
      omega
    have hne' : l ++ values.take (min (32 - l.length % 32) count) ≠ [] :=
      fun h => hne (List.append_eq_nil.mp h).1
    have hvec : vector.mk
        (build_tree (size_to_levels l.length)
          (l ++ values.take (min (32 - l.length % 32) count)))
        (l.length + min (32 - l.length % 32) count)
        (of_list l).shift =
        of_list (l ++ values.take (min (32 - l.length % 32) count)) := by
      rw [of_list_eq_mk hne', hlev, of_list_shift, vector_size_to_shift_pos hlen0]
      simp only [vector.mk.injEq]
      refine ⟨trivial, ?_, trivial⟩
      simp only [List.length_append, htk_len]
    rw [hvec]
    have hdisj : (l ++ values.take (min (32 - l.length % 32) count)).length % 32 = 0 ∨
        count ≤ min (32 - l.length % 32) count := by
      simp only [List.length_append, htk_len]
      rcases Nat.le_total (32 - l.length % 32) count with h | h
      · left
        rw [Nat.min_eq_left h]
        omega
      · right
        rw [Nat.min_eq_right h]
    rw [push_back_batch_loop_build count _ values _ count (by omega) hcnt hdisj]
    congr 1
    rw [List.append_assoc]
    congr 1
    rw [show (values.drop (min (32 - l.length % 32) count)).take
          (count - min (32 - l.length % 32) count) =
        ((values.take count).drop (min (32 - l.length % 32) count)) from ?_]
    · rw [show values.take (min (32 - l.length % 32) count) =
          (values.take count).take (min (32 - l.length % 32) count) from by
        rw [List.take_take, Nat.min_eq_left hcc_cnt]]
      rw [List.take_append_drop]
    · rw [List.drop_take]
  · -- phase 1 skipped: the vector is leaf-aligned
    have h := push_back_batch_loop_build count l values 0 count (by omega) hcnt
      (Or.inl (by omega))
    rw [h]
    simp

/-- Pointwise-equal block functions produce the same block-wise concatenation. -/
theorem flatMap_range_congr {α : Type} (f g : Nat → List α) :
    ∀ m, (∀ i, i < m → f i = g i) →
      (List.range m).flatMap f = (List.range m).flatMap g := by
  intro m
  induction m with
  | zero => intro _; rfl
  | succ m ih =>
    intro h
    rw [List.range_succ, List.flatMap_append, List.flatMap_append,
      ih (fun i hi => h i (by omega))]
    simp [h m (by omega)]

/-- Concatenating the `c`-sized windows of `l` indexed `0..m-1` rebuilds
`l.take (c * m)`. -/
theorem range_flatMap_take {α : Type} (l : List α) (c : Nat) :
    ∀ m, (List.range m).flatMap (fun i => (l.drop (c * i)).take c) = l.take (c * m) := by
  intro m
  induction m with
  | zero => simp
  | succ m ih =>
    rw [List.range_succ, List.flatMap_append, ih]
    simp only [List.flatMap_cons, List.flatMap_nil, List.append_nil]
    rw [← List.take_add]
    congr 1

/-- The defined prefix of block `i` of a canonical vector is window `i` of its
element list. -/
theorem get_block_take_of_list {α : Type} [Inhabited α] (l : List α) (i : Nat)
    (hi : i * 32 < l.length) :
    (get_block (of_list l) i).take (min 32 (l.length - i * 32)) =
      (l.drop (32 * i)).take 32 := by
  rw [get_block, B_def, find_leaf_node_of_list l (i * 32) hi]
  have hdiv : i * 32 / 32 = i := by omega
  rw [hdiv, build_tree_zero, leaf_values]
  have hcl : ((l.drop (32 * i)).take 32).length = min 32 (l.length - i * 32) := by
    simp only [List.length_take, List.length_drop]
    omega
  rw [List.take_append_of_le_length hcl.ge]
  exact List.take_of_length_le hcl.le

/-- `to_vec` recovers the element list of a canonical vector. -/
theorem to_vec_of_list {α : Type} [Inhabited α] (l : List α) : to_vec (of_list l) = l := by
  rw [to_vec]
  simp only [get_block_count, divide_round_up, of_list_size, B_def]
  have hstep : ∀ i, i < (l.length + 32 - 1) / 32 →
      (get_block (of_list l) i).take (min 32 (l.length - i * 32)) =
      (l.drop (32 * i)).take 32 := by
    intro i hi
    exact get_block_take_of_list l i (by omega)
  rw [flatMap_range_congr _ _ _ hstep, range_flatMap_take]
  exact List.take_of_length_le (by omega)

/-- The `std::vector` constructor builds the canonical vector of its input. -/
theorem vector_from_std_vector_eq {α : Type} [Inhabited α] (values : List α) :
    vector_from_std_vector values = of_list values := by
  rw [vector_from_std_vector]
  split_ifs with h
  · rw [List.isEmpty_iff.mp h, of_list_nil]
  · rw [show (empty_vector : vector α) = of_list [] from of_list_nil.symm,
      push_back_batch_build [] values values.length le_rfl, List.nil_append,
      List.take_length]

/-- `pop_back` on a canonical vector drops the last element. -/
theorem pop_back_of_list {α : Type} [Inhabited α] (l : List α) :
    (of_list l).pop_back = of_list l.dropLast := by
  simp only [vector.pop_back, to_vec_of_list, of_list_size]
  rw [show (empty_vector : vector α) = of_list [] from of_list_nil.symm,
    push_back_batch_build [] l (l.length - 1) (by omega), List.nil_append]
  congr 1
  rw [List.dropLast_eq_take]

/-- `store` on a canonical vector sets one element of the list. -/
theorem store_of_list {α : Type} [Inhabited α] (l : List α) (i : Nat) (v : α)
    (hi : i < l.length) :
    (of_list l).store i v = of_list (l.set i v) := by
  have hlen0 : l.length ≠ 0 := by omega
  have hne : l ≠ [] := fun h => hlen0 (by rw [h]; rfl)
  rw [vector.store, of_list_root hne, of_list_shift_toNat hne, of_list_size]
  have hmod : i % 32 ^ (size_to_levels l.length + 1) = i :=
    Nat.mod_eq_of_lt (lt_of_lt_of_le hi (le_pow_size_to_levels l.length))
  rw [replace_value_build_set _ _ _ _ (le_pow_size_to_levels l.length)
    (by rw [hmod]; exact hi), hmod]
  have hne' : l.set i v ≠ [] := by
    intro h
    have h2 := congrArg List.length h
    rw [List.length_set] at h2
    exact hlen0 h2
  rw [of_list_eq_mk hne', List.length_set, of_list_shift,
    vector_size_to_shift_pos hlen0]

/-- `operator+` on canonical vectors, in the case the right operand is
non-empty, concatenates the element lists. -/
theorem op_add_of_list {α : Type} [Inhabited α] (a b : List α) (hb : b ≠ []) :
    op_add (of_list a) (of_list b) = of_list (a ++ b) := by
  simp only [op_add, of_list_size, to_vec_of_list]
  rw [if_neg (fun h => hb (List.length_eq_zero.mp h)),
    push_back_batch_build a b b.length le_rfl, List.take_length]

/-- `operator+` with an empty right operand discards the left operand: the
default-constructed `result` is returned untouched. -/
theorem op_add_empty_right {α : Type} [Inhabited α] (a : vector α) :
    op_add a empty_vector = empty_vector := by
  rw [op_add]
  exact if_pos rfl

/-- Canonical vectors of distinct lists are distinct. -/
theorem of_list_inj {α : Type} [Inhabited α] {la lb : List α} (h : of_list la = of_list lb) :
    la = lb := by
  have hlen : la.length = lb.length := congrArg vector.size h
  refine ext_getD default hlen ?_
  intro i hi
  rw [← get_at_of_list la i hi, ← get_at_of_list lb i (hlen ▸ hi), h]

/-- With any sound allocation test, `vec_eq` on canonical vectors is exactly
list equality: the fast paths only ever answer `true` when the roots are the
same node, and the block loop compares the defined prefixes of all leaves. -/
theorem vec_eq_of_list {α : Type} [Inhabited α] [DecidableEq α]
    (same_alloc : node_ref α → node_ref α → Bool)
    (hsound : ∀ x y, same_alloc x y = true → x = y)
    (la lb : List α) :
    vec_eq same_alloc (of_list la) (of_list lb) = true ↔ la = lb := by
  constructor
  · intro h
    rw [vec_eq] at h
    by_cases hsz : (of_list la).size ≠ (of_list lb).size
    · rw [if_pos hsz] at h
      exact absurd h (by simp)
    · rw [if_neg hsz] at h
      have hsz' : (of_list la).size = (of_list lb).size := not_not.mp hsz
      have hlen : la.length = lb.length := hsz'
      by_cases h0 : (of_list la).size = 0
      · have h0a : la.length = 0 := h0
        have h0b : lb = [] := List.length_eq_zero.mp (by omega)
        rw [List.length_eq_zero.mp h0a, h0b]
      · rw [if_neg h0] at h
        by_cases hty : get_type (of_list la).root ≠ get_type (of_list lb).root
        · rw [if_pos hty] at h
          exact absurd h (by simp)
        · rw [if_neg hty] at h
          have hroot_of_alloc :
              same_alloc (of_list la).root (of_list lb).root = true → la = lb := by
            intro halloc
            have hroots := hsound _ _ halloc
            have hshift : (of_list la).shift = (of_list lb).shift := by
              rw [of_list_shift, of_list_shift, hlen]
            refine of_list_inj (α := α) ?_
            have h1 : of_list la =
                vector.mk (of_list la).root (of_list la).size (of_list la).shift := rfl
            have h2 : of_list lb =
                vector.mk (of_list lb).root (of_list lb).size (of_list lb).shift := rfl
            rw [h1, h2, hroots, hsz', hshift]
          by_cases hf1 : get_type (of_list la).root = node_type.inode ∧
              same_alloc (of_list la).root (of_list lb).root = true
          · exact hroot_of_alloc hf1.2
          · rw [if_neg hf1] at h
            by_cases hf2 : get_type (of_list la).root = node_type.leaf_node ∧
                same_alloc (of_list la).root (of_list lb).root = true
            · exact hroot_of_alloc hf2.2
            · rw [if_neg hf2] at h
              rw [List.all_eq_true] at h
              have hM : get_block_count (of_list la) = (la.length + 32 - 1) / 32 := rfl
              have hseg : ∀ i, i < get_block_count (of_list la) →
                  (la.drop (32 * i)).take 32 = (lb.drop (32 * i)).take 32 := by
                intro i hiM
                have hx := h i (List.mem_range.mpr hiM)
                simp only [decide_eq_true_eq, of_list_size, B_def] at hx
                rw [get_block_take_of_list la i (by omega)] at hx
                rw [hlen] at hx
                rw [get_block_take_of_list lb i (by omega)] at hx
                exact hx
              calc la = la.take (32 * get_block_count (of_list la)) :=
                    (List.take_of_length_le (by omega)).symm
                _ = (List.range (get_block_count (of_list la))).flatMap
                      (fun i => (la.drop (32 * i)).take 32) :=
                    (range_flatMap_take la 32 _).symm
                _ = (List.range (get_block_count (of_list la))).flatMap
                      (fun i => (lb.drop (32 * i)).take 32) :=
                    flatMap_range_congr _ _ _ hseg
                _ = lb.take (32 * get_block_count (of_list la)) :=
                    range_flatMap_take lb 32 _
                _ = lb := List.take_of_length_le (by omega)
  · rintro rfl
    rw [vec_eq]
    rw [if_neg (by simp)]
    by_cases h0 : (of_list la).size = 0
    · rw [if_pos h0]
    · rw [if_neg h0, if_neg (by simp)]
      by_cases hf1 : get_type (of_list la).root = node_type.inode ∧
          same_alloc (of_list la).root (of_list la).root = true
      · rw [if_pos hf1]
      · rw [if_neg hf1]
        by_cases hf2 : get_type (of_list la).root = node_type.leaf_node ∧
            same_alloc (of_list la).root (of_list la).root = true
        · rw [if_pos hf2]
        · rw [if_neg hf2]
          simp

/-- Pushing the values `0, 1, …, n-1` in order onto the empty vector. -/
def push_n (n : Nat) : vector Nat :=
  (List.range n).foldl (fun v i => v.push_back i) empty_vector

theorem push_n_eq (n : Nat) : push_n n = of_list (List.range n) := by
  induction n with
  | zero => rfl
  | succ n ih =>
    rw [push_n, List.range_succ, List.foldl_append,
      show (List.range n).foldl (fun v i => v.push_back i) empty_vector = push_n n from rfl,
      ih]
    simp only [List.foldl_cons, List.foldl_nil]
    exact push_back_1_build (List.range n) n

theorem size_to_levels_33 : size_to_levels 33 = 1 := by
  have h1 : size_to_levels 33 ≤ 1 := size_to_levels_le 33 1 (by norm_num)
  have h2 : ¬ size_to_levels 33 ≤ 0 := by
    rw [size_to_levels_le_iff]
    norm_num
  omega

theorem size_to_levels_1024 : size_to_levels 1024 = 1 := by
  have h1 : size_to_levels 1024 ≤ 1 := size_to_levels_le 1024 1 (by norm_num)
  have h2 : ¬ size_to_levels 1024 ≤ 0 := by
    rw [size_to_levels_le_iff]
    norm_num
  omega

theorem size_to_levels_1025 : size_to_levels 1025 = 2 := by
  have h1 : size_to_levels 1025 ≤ 2 := size_to_levels_le 1025 2 (by norm_num)
  have h2 : ¬ size_to_levels 1025 ≤ 1 := by
    rw [size_to_levels_le_iff]
    norm_num
  omega

/-- The invariant claimed for every reachable vector: an empty vector has the
null root handle and the empty-tree shift, a non-empty one has a non-null root
and the canonical shift for its size (`vector<T>::check_invariant` plus
`tree_check_invariant` from the source, minus the `_shift < 32` range check,
which concerns only machine-width sizes). -/
def check_invariant {α : Type} (v : vector α) : Prop :=
  (v.size = 0 → get_type v.root = node_type.null_node ∧ v.shift = EMPTY_TREE_SHIFT) ∧
  (v.size ≠ 0 → get_type v.root ≠ node_type.null_node ∧
    v.shift = vector_size_to_shift v.size)

theorem build_tree_ne_null {α : Type} [Inhabited α] (k : Nat) (l : List α) :
    get_type (build_tree k l) ≠ node_type.null_node := by
  cases k with
  | zero => rw [build_tree_zero]; simp [get_type]
  | succ k => rw [build_tree_succ]; simp [get_type]

/-- Every canonical vector satisfies the claimed invariant. -/
theorem check_invariant_of_list {α : Type} [Inhabited α] (l : List α) :
    check_invariant (of_list l) := by
  by_cases h : l = []
  · subst h
    exact ⟨fun _ => ⟨rfl, rfl⟩, fun hc => absurd rfl hc⟩
  · have hlen : l.length ≠ 0 := fun hc => h (List.length_eq_zero.mp hc)
    refine ⟨fun hc => absurd hc hlen, fun _ => ⟨?_, rfl⟩⟩
    rw [of_list_root h]
    exact build_tree_ne_null _ _

/-!
Claims.
-/

/-- C1: the spec claims `operator+` returns a sequence of size
`a.size + b.size` holding `a` followed by `b`, including `b` empty (result
equal to `a`).  The source instead returns the default-constructed `result`
untouched whenever `b` is empty, so for `a = [0]` and empty `b` the sum is the
empty vector: its size is 0, not `a.size + b.size = 1`, and it differs
from `a`. -/
theorem C1_op_add_empty_discards_left :
    op_add (of_list [(0 : Nat)]) (of_list ([] : List Nat)) = empty_vector ∧
    (op_add (of_list [(0 : Nat)]) (of_list ([] : List Nat))).size ≠
      (of_list [(0 : Nat)]).size + (of_list ([] : List Nat)).size ∧
    op_add (of_list [(0 : Nat)]) (of_list ([] : List Nat)) ≠ of_list [(0 : Nat)] := by
  have h : op_add (of_list [(0 : Nat)]) (of_list ([] : List Nat)) = empty_vector := by
    rw [of_list_nil]
    exact op_add_empty_right _
  refine ⟨h, ?_, ?_⟩
  · rw [h]
    decide
  · intro hc
    rw [h] at hc
    exact absurd (congrArg vector.size hc) (by decide)

/-- C2 (corrected: after 1024 pushes the shift is 5, not 10, since
`32^(5/5+1) = 1024 ≥ 1024`; it grows to 10 at push 1025): pushing `0..n-1`
onto the empty vector, after 32 pushes the size is 32 and the shift is 0,
after 33 pushes the shift is 5, after 1024 pushes the shift is still 5, after
1025 pushes it is 10, and `at(k) = k` for every `k < 1024`. -/
theorem C2_push_back_growth :
    (push_n 32).size = 32 ∧ (push_n 32).shift = 0 ∧
    (push_n 33).shift = 5 ∧ (push_n 1024).shift = 5 ∧ (push_n 1025).shift = 10 ∧
    ∀ k, k < 1024 → get_at (push_n 1024) k = k := by
  refine ⟨?_, ?_, ?_, ?_, ?_, ?_⟩
  · rw [push_n_eq, of_list_size, List.length_range]
  · rw [push_n_eq, of_list_shift, List.length_range,
      vector_size_to_shift_pos (by norm_num), size_to_levels_of_le (by norm_num)]
    decide
  · rw [push_n_eq, of_list_shift, List.length_range,
      vector_size_to_shift_pos (by norm_num), size_to_levels_33]
    decide
  · rw [push_n_eq, of_list_shift, List.length_range,
      vector_size_to_shift_pos (by norm_num), size_to_levels_1024]
    decide
  · rw [push_n_eq, of_list_shift, List.length_range,
      vector_size_to_shift_pos (by norm_num), size_to_levels_1025]
    decide
  · intro k hk
    rw [push_n_eq, get_at_of_list _ k (by simpa using hk),
      List.getD_eq_getElem _ _ (by simpa using hk)]
    simp

theorem C2_push_back_growth_witness : get_at (push_n 1024) 7 = 7 :=
  C2_push_back_growth.2.2.2.2.2 7 (by decide)

theorem C2_push_back_growth_counterexample : (push_n 1024).shift ≠ 10 := by
  rw [push_n_eq, of_list_shift, List.length_range,
    vector_size_to_shift_pos (by norm_num), size_to_levels_1024]
  decide

/-- C3 (corrected: the source's buffer constructor documents and asserts
"values: must not be nullptr, not even when count == 0", so a null pointer is
rejected even for `count = 0`): with a non-null buffer, `count = 0` reads no
element and yields the empty vector; with a null buffer the constructor
asserts. -/
theorem C3_extend_zero (l : List Nat) :
    vector_from_buffer (some l) 0 = some empty_vector ∧
    vector_from_buffer (none : Option (List Nat)) 0 = none := by
  constructor
  · have h := push_back_batch_build [] l 0 (Nat.zero_le _)
    rw [List.take_zero, List.append_nil, of_list_nil] at h
    show some (push_back_batch empty_vector l 0) = some empty_vector
    rw [show push_back_batch empty_vector l 0 = empty_vector from h]
  · rfl

theorem C3_extend_zero_counterexample :
    vector_from_buffer (none : Option (List Nat)) 0 ≠ some empty_vector := by
  intro h
  exact Option.noConfusion h

/-- C4: `store` persistence: after `s' = s.store(i, v)` with `i < s.size`,
`s'.at(i) = v`, `s'.at(j) = s.at(j)` for every in-range `j ≠ i`, and the
original vector still yields its original value at `i` (the embedding is
pure, so `s` is literally unchanged; its `at(i)` is its list entry). -/
theorem C4_store_persistence (l : List Nat) (i : Nat) (v : Nat) (hi : i < l.length) :
    get_at ((of_list l).store i v) i = v ∧
    (∀ j, j < l.length → j ≠ i → get_at ((of_list l).store i v) j = get_at (of_list l) j) ∧
    get_at (of_list l) i = l.getD i default := by
  have hs := store_of_list l i v hi
  refine ⟨?_, ?_, get_at_of_list l i hi⟩
  · rw [hs, get_at_of_list _ i (by rw [List.length_set]; exact hi)]
    exact getD_set_self l default v i hi
  · intro j hj hne
    rw [hs, get_at_of_list _ j (by rw [List.length_set]; exact hj),
      get_at_of_list l j hj]
    exact getD_set_ne l default v i j (fun hc => hne hc.symm)

theorem C4_store_persistence_witness :
    get_at ((of_list [10, 20, 30]).store 1 99) 1 = 99 ∧
    get_at ((of_list [10, 20, 30]).store 1 99) 2 = get_at (of_list [10, 20, 30]) 2 :=
  ⟨(C4_store_persistence [10, 20, 30] 1 99 (by decide)).1,
   (C4_store_persistence [10, 20, 30] 1 99 (by decide)).2.1 2 (by decide) (by decide)⟩

/-- C5: `push_back` appends: the result has size `s.size + 1`, its element at
index `s.size` is `v`, and every index `j < s.size` is unchanged. -/
theorem C5_push_back_identity (l : List Nat) (v : Nat) :
    ((of_list l).push_back v).size = (of_list l).size + 1 ∧
    get_at ((of_list l).push_back v) l.length = v ∧
    ∀ j, j < l.length → get_at ((of_list l).push_back v) j = get_at (of_list l) j := by
  have hp : (of_list l).push_back v = of_list (l ++ [v]) := push_back_1_build l v
  refine ⟨?_, ?_, ?_⟩
  · rw [hp, of_list_size, of_list_size, List.length_append]
    rfl
  · rw [hp, get_at_of_list _ l.length (by simp)]
    rw [List.getD_append_right _ _ _ _ le_rfl]
    simp
  · intro j hj
    rw [hp, get_at_of_list _ j (by simp; omega), get_at_of_list l j hj]
    exact List.getD_append _ _ _ _ hj

theorem C5_push_back_identity_witness :
    get_at ((of_list [4, 5]).push_back 6) 2 = 6 ∧
    get_at ((of_list [4, 5]).push_back 6) 0 = get_at (of_list [4, 5]) 0 :=
  ⟨(C5_push_back_identity [4, 5] 6).2.1,
   (C5_push_back_identity [4, 5] 6).2.2 0 (by decide)⟩

/-- C6: flat-buffer round-trip: building a vector from a buffer and
materialising it with `to_vec` returns the buffer, and rebuilding a vector
from `to_vec` of a vector is `operator==`-equal to it (for any sound
pointer-equality test on nodes). -/
theorem C6_round_trip (same_alloc : node_ref Nat → node_ref Nat → Bool)
    (hsound : ∀ x y, same_alloc x y = true → x = y) (buf s : List Nat) :
    to_vec (vector_from_std_vector buf) = buf ∧
    vec_eq same_alloc (vector_from_std_vector (to_vec (of_list s))) (of_list s) = true := by
  constructor
  · rw [vector_from_std_vector_eq, to_vec_of_list]
  · rw [to_vec_of_list, vector_from_std_vector_eq]
    exact (vec_eq_of_list same_alloc hsound s s).mpr rfl

theorem C6_round_trip_witness :
    to_vec (vector_from_std_vector [1, 2, 3]) = [1, 2, 3] :=
  (C6_round_trip (fun _ _ => false) (fun _ _ h => absurd h Bool.false_ne_true)
    [1, 2, 3] []).1

/-- C7: `operator==` on canonical vectors is true exactly when the sizes agree
and the elements agree at every index, for any sound pointer-equality fast
path. -/
theorem C7_operator_eq (same_alloc : node_ref Nat → node_ref Nat → Bool)
    (hsound : ∀ x y, same_alloc x y = true → x = y) (a b : List Nat) :
    vec_eq same_alloc (of_list a) (of_list b) = true ↔
      (of_list a).size = (of_list b).size ∧
      ∀ i, i < a.length → get_at (of_list a) i = get_at (of_list b) i := by
  rw [vec_eq_of_list same_alloc hsound]
  constructor
  · rintro rfl
    exact ⟨rfl, fun i _ => rfl⟩
  · rintro ⟨hsz, hel⟩
    have hlen : a.length = b.length := hsz
    refine ext_getD default hlen ?_
    intro i hi
    have h2 := hel i hi
    rw [get_at_of_list a i hi, get_at_of_list b i (hlen ▸ hi)] at h2
    exact h2

theorem C7_operator_eq_witness :
    vec_eq (fun _ _ => false) (of_list [1, 2]) (of_list [1, 2]) = true :=
  (C7_operator_eq (fun _ _ => false) (fun _ _ h => absurd h Bool.false_ne_true)
    [1, 2] [1, 2]).mpr ⟨rfl, fun _ _ => rfl⟩

/-- C8: `pop_back` on a non-empty vector has size one less, agrees with the
original at every index `j ≤ size - 2` (the embedding is pure, so the
original vector is literally unchanged). -/
theorem C8_pop_back_contract (l : List Nat) (h : l ≠ []) :
    ((of_list l).pop_back).size = (of_list l).size - 1 ∧
    ∀ j, j + 1 < l.length → get_at ((of_list l).pop_back) j = get_at (of_list l) j := by
  have hp := pop_back_of_list l
  constructor
  · rw [hp, of_list_size, of_list_size, List.length_dropLast]
  · intro j hj
    rw [hp, get_at_of_list _ j (by rw [List.length_dropLast]; omega),
      get_at_of_list l j (by omega), List.dropLast_eq_take]
    exact getD_take l default (l.length - 1) j (by omega)

theorem C8_pop_back_contract_witness :
    ((of_list [7, 8, 9]).pop_back).size = (of_list [7, 8, 9]).size - 1 ∧
    get_at ((of_list [7, 8, 9]).pop_back) 0 = get_at (of_list [7, 8, 9]) 0 :=
  ⟨(C8_pop_back_contract [7, 8, 9] (by decide)).1,
   (C8_pop_back_contract [7, 8, 9] (by decide)).2 0 (by decide)⟩

/-- C9: every vector produced by a public operation — the empty constructor,
the buffer/`std::vector` constructors, `store`, `push_back`, `pop_back`,
`extend` (`push_back_batch`), and concatenation — satisfies the canonical
invariant: empty vectors have the null root handle and shift
`EMPTY_TREE_SHIFT`; non-empty ones a non-null root and shift
`vector_size_to_shift(size)`. -/
theorem C9_public_ops_invariant (l la lb : List Nat) (v i : Nat) (hi : i < la.length) :
    check_invariant (empty_vector : vector Nat) ∧
    check_invariant (vector_from_std_vector l) ∧
    check_invariant ((of_list l).push_back v) ∧
    check_invariant ((of_list l).pop_back) ∧
    check_invariant ((of_list la).store i v) ∧
    check_invariant (push_back_batch (of_list la) lb lb.length) ∧
    check_invariant (op_add (of_list la) (of_list lb)) := by
  refine ⟨check_invariant_of_list [], ?_, ?_, ?_, ?_, ?_, ?_⟩
  · rw [vector_from_std_vector_eq]
    exact check_invariant_of_list l
  · rw [show (of_list l).push_back v = of_list (l ++ [v]) from push_back_1_build l v]
    exact check_invariant_of_list _
  · rw [pop_back_of_list]
    exact check_invariant_of_list _
  · rw [store_of_list la i v hi]
    exact check_invariant_of_list _
  · rw [push_back_batch_build la lb lb.length le_rfl]
    exact check_invariant_of_list _
  · by_cases hb : lb = []
    · subst hb
      rw [of_list_nil, op_add_empty_right]
      exact check_invariant_of_list []
    · rw [op_add_of_list la lb hb]
      exact check_invariant_of_list _

theorem C9_public_ops_invariant_witness :
    check_invariant ((of_list [3, 1]).store 0 9) :=
  (C9_public_ops_invariant [] [3, 1] [] 9 0 (by decide)).2.2.2.2.1

/-- C10: frame property of `store`: the returned vector has the same `_size`
and `_shift` fields as the receiver; only the root is replaced. -/
theorem C10_store_frame {α : Type} (s : vector α) (i : Nat) (v : α) (hi : i < s.size) :
    (s.store i v).size = s.size ∧ (s.store i v).shift = s.shift :=
  ⟨rfl, rfl⟩

theorem C10_store_frame_witness :
    ((of_list [5]).store 0 7).size = (of_list [5]).size ∧
    ((of_list [5]).store 0 7).shift = (of_list [5]).shift :=
  C10_store_frame (of_list [5]) 0 7 (by decide)

end Steady
